import Mathlib

/-!
Verification of the memory-management engine (dual-tier conversational
memory subsystem).

This file gives a shallow embedding of the engine's core logic and proves
the specification claims against it.

Modelling conventions:
- Python floats become rationals (`ℚ`); all constants involved are exactly
  representable.
- Python strings become Lean `String`s; case-insensitive operations work on
  the underlying character lists via `Char.toLower` (the texts involved are
  ASCII, where Python `str.lower` agrees with `Char.toLower`).
- Python dicts used as metadata maps become insertion-ordered association
  lists (`List (String × MetaVal)`) with overwrite-in-place update, matching
  Python dict semantics (insertion order preserved; overwriting a key keeps
  its position).
- Python `list.sort` is a stable sort; a stable sort by a total preorder has
  a unique result, which we model with `List.insertionSort`.
- The external vector store (Qdrant) and the embedding model are external
  collaborators.  The embedding model is an arbitrary parameter
  `encode : String → List ℚ`; the vector store is modelled as an in-order
  list of points whose search returns the stored entries (with their
  vectors) ranked by cosine similarity, with `uuid4` ids modelled as fresh
  counter-derived ids.
- Stateful methods become explicit state-passing functions; wall-clock time
  is an explicit integer parameter `now` (arbitrary time unit).
-/

/-! ### String utilities (Python substring / lower / split / startswith) -/

/-- Python `pat in s` on character lists: `pat` occurs contiguously in `s`. -/
def containsSeq (pat : List Char) : List Char → Bool
  | [] => pat.isEmpty
  | c :: rest => pat.isPrefixOf (c :: rest) || containsSeq pat rest

/-- Characters of `s.lower()` (ASCII semantics of Python `str.lower`). -/
def lowerChars (s : String) : List Char :=
  s.data.map Char.toLower

/-- Python `text.startswith((p1, ..., pn))`. -/
def startsWithAny (s : List Char) (pats : List String) : Bool :=
  pats.any (fun p => p.data.isPrefixOf s)

/-- Helper for `splitWords`: walk the characters, accumulating the current
word (reversed); whitespace ends a word, empty pieces are dropped. -/
def splitWordsAux : List Char → List Char → List String
  | [], acc => if acc.isEmpty then [] else [String.mk acc.reverse]
  | c :: rest, acc =>
    if c.isWhitespace then
      (if acc.isEmpty then [] else [String.mk acc.reverse]) ++ splitWordsAux rest []
    else splitWordsAux rest (c :: acc)

/-- Python `s.split()`: split on whitespace runs, dropping empty pieces. -/
def splitWords (s : String) : List String :=
  splitWordsAux s.data []

/-- Python `s.strip()` on character lists: drop surrounding whitespace. -/
def trimChars (s : List Char) : List Char :=
  ((s.dropWhile Char.isWhitespace).reverse.dropWhile Char.isWhitespace).reverse

/-! ### `app/memory/scoring.py` -/

/-- High-importance keyword bucket (`scoring.py` lines 14-26). -/
def high_importance_keywords : List String :=
  ["urgent", "asap", "important", "critical", "deadline", "meeting",
   "call", "emergency", "fail", "error", "bug"]

/-- Medium-importance keyword bucket (`scoring.py` lines 28-37). -/
def medium_importance_keywords : List String :=
  ["reminder", "note", "remember", "follow up", "task", "todo",
   "schedule", "plan"]

/-- The scorer's `context` dict: only the two keys the scorer reads.
Modelled from the call sites; a missing key reads as the default. -/
structure ScoreContext where
  conversation_length : ℤ := 0
  user_explicitly_asked_to_remember : Bool := false
deriving DecidableEq, Repr

/-- The length-based component of `score_importance`
(`scoring.py` lines 47-51), exactly as written in the source:
`if len(text) > 200: +0.1 elif len(text) > 500: +0.2`. -/
def lengthBonus (n : ℕ) : ℚ :=
  if n > 200 then 1/10
  else if n > 500 then 2/10
  else 0

/-- `score_importance` (`scoring.py` lines 6-65): keyword-bucket scoring,
length bonus, context bonuses, question heuristic, clamped by `min(·, 1.0)`. -/
def score_importance (text : String) (context : ScoreContext) : ℚ :=
  let text_lower := lowerChars text
  let high_matches :=
    (high_importance_keywords.filter (fun w => containsSeq w.data text_lower)).length
  let medium_matches :=
    (medium_importance_keywords.filter (fun w => containsSeq w.data text_lower)).length
  let base : ℚ :=
    (high_matches : ℚ) * (3/10) + (medium_matches : ℚ) * (15/100)
      + lengthBonus text.length
      + (if context.conversation_length > 10 then 1/10 else 0)
      + (if context.user_explicitly_asked_to_remember then 4/10 else 0)
      + (if text.data.contains '?'
            || startsWithAny text_lower ["what", "how", "why", "when", "where"]
         then 1/10 else 0)
  min base 1

theorem lengthBonus_nonneg (n : ℕ) : 0 ≤ lengthBonus n := by
  unfold lengthBonus
  split <;> [norm_num; split <;> norm_num]

theorem score_importance_nonneg (t : String) (c : ScoreContext) :
    0 ≤ score_importance t c := by
  unfold score_importance
  refine le_min ?_ (by norm_num)
  have h1 := lengthBonus_nonneg t.length
  positivity

theorem score_importance_le_one (t : String) (c : ScoreContext) :
    score_importance t c ≤ 1 := by
  unfold score_importance
  exact min_le_right _ _

/-! ### Rational vector arithmetic (embeddings, cosine similarity)

`sklearn.metrics.pairwise.cosine_similarity` computes
`dot(a, b) / (‖a‖ * ‖b‖)`.  To keep the development executable we avoid
real square roots: the comparison `cosine_similarity(a, b) ≥ θ` is encoded
by `cosSimGe`, which cross-multiplies and squares.  The bridge lemma
`cosSimGe_iff_real` proves this encoding equal to the real-valued
comparison for vectors of nonzero norm. -/

/-- Dot product of two rational vectors (pointwise, extra tail ignored). -/
def dot : List ℚ → List ℚ → ℚ
  | [], _ => 0
  | _, [] => 0
  | x :: xs, y :: ys => x * y + dot xs ys

/-- Squared Euclidean norm. -/
def sqnorm (v : List ℚ) : ℚ := dot v v

theorem dot_self_nonneg (v : List ℚ) : 0 ≤ dot v v := by
  induction v with
  | nil => simp [dot]
  | cons x xs ih => simpa [dot] using add_nonneg (mul_self_nonneg x) ih

theorem sqnorm_nonneg (v : List ℚ) : 0 ≤ sqnorm v := dot_self_nonneg v

/-- `cosine_similarity(a, b) ≥ θ`, encoded without square roots.
For zero-norm vectors sklearn yields similarity `0`. -/
def cosSimGe (a b : List ℚ) (θ : ℚ) : Bool :=
  if sqnorm a = 0 ∨ sqnorm b = 0 then θ ≤ 0
  else if 0 ≤ dot a b then θ ≤ 0 ∨ θ ^ 2 * sqnorm a * sqnorm b ≤ (dot a b) ^ 2
  else θ ≤ 0 ∧ (dot a b) ^ 2 ≤ θ ^ 2 * sqnorm a * sqnorm b

theorem le_of_sq_le_sq_aux {x y : ℝ} (_hx : 0 ≤ x) (hy : 0 ≤ y)
    (h : x ^ 2 ≤ y ^ 2) : x ≤ y := by
  nlinarith [sq_nonneg (x - y), sq_nonneg (x + y)]

/-- The encoding agrees with the real-valued cosine-similarity comparison. -/
theorem cosSimGe_iff_real (a b : List ℚ) (θ : ℚ)
    (ha : sqnorm a ≠ 0) (hb : sqnorm b ≠ 0) :
    cosSimGe a b θ = true ↔
      (θ : ℝ) ≤ (dot a b : ℝ) /
        (Real.sqrt (sqnorm a : ℝ) * Real.sqrt (sqnorm b : ℝ)) := by
  have hapos : (0 : ℝ) < (sqnorm a : ℝ) := by
    exact_mod_cast lt_of_le_of_ne (sqnorm_nonneg a) (Ne.symm ha)
  have hbpos : (0 : ℝ) < (sqnorm b : ℝ) := by
    exact_mod_cast lt_of_le_of_ne (sqnorm_nonneg b) (Ne.symm hb)
  have hsa : (0 : ℝ) < Real.sqrt (sqnorm a : ℝ) := Real.sqrt_pos.mpr hapos
  have hsb : (0 : ℝ) < Real.sqrt (sqnorm b : ℝ) := Real.sqrt_pos.mpr hbpos
  set s : ℝ := Real.sqrt (sqnorm a : ℝ) * Real.sqrt (sqnorm b : ℝ) with hs
  have hspos : (0 : ℝ) < s := mul_pos hsa hsb
  have hssq : s ^ 2 = (sqnorm a : ℝ) * (sqnorm b : ℝ) := by
    rw [hs, mul_pow, Real.sq_sqrt hapos.le, Real.sq_sqrt hbpos.le]
  rw [le_div_iff₀ hspos]
  unfold cosSimGe
  rw [if_neg (by push_neg; exact ⟨ha, hb⟩)]
  rcases le_or_lt 0 (dot a b) with hd | hd
  · have hdr : (0 : ℝ) ≤ (dot a b : ℝ) := by exact_mod_cast hd
    rw [if_pos hd]
    constructor
    · intro h
      rcases of_decide_eq_true h with hθ | hsq
      · have hθr : (θ : ℝ) ≤ 0 := by exact_mod_cast hθ
        calc (θ : ℝ) * s ≤ 0 := mul_nonpos_of_nonpos_of_nonneg hθr hspos.le
          _ ≤ (dot a b : ℝ) := hdr
      · rcases le_or_lt θ 0 with hθ | hθ
        · have hθr : (θ : ℝ) ≤ 0 := by exact_mod_cast hθ
          calc (θ : ℝ) * s ≤ 0 := mul_nonpos_of_nonpos_of_nonneg hθr hspos.le
            _ ≤ (dot a b : ℝ) := hdr
        · have hθr : (0 : ℝ) < (θ : ℝ) := by exact_mod_cast hθ
          have hcast : (θ : ℝ) ^ 2 * (sqnorm a : ℝ) * (sqnorm b : ℝ) ≤ (dot a b : ℝ) ^ 2 := by
            exact_mod_cast hsq
          have h1 : ((θ : ℝ) * s) ^ 2 ≤ ((dot a b : ℝ)) ^ 2 := by
            calc ((θ : ℝ) * s) ^ 2 = (θ : ℝ) ^ 2 * (sqnorm a : ℝ) * (sqnorm b : ℝ) := by
                  rw [mul_pow, hssq]; ring
              _ ≤ ((dot a b : ℝ)) ^ 2 := hcast
          exact le_of_sq_le_sq_aux (by positivity) hdr h1
    · intro h
      apply decide_eq_true
      rcases le_or_lt θ 0 with hθ | hθ
      · exact Or.inl hθ
      · refine Or.inr ?_
        have hθr : (0 : ℝ) < (θ : ℝ) := by exact_mod_cast hθ
        have h1 : ((θ : ℝ) * s) ^ 2 ≤ ((dot a b : ℝ)) ^ 2 := by
          have hts : (0 : ℝ) ≤ (θ : ℝ) * s := by positivity
          nlinarith [h, hts]
        have h2 : (θ : ℝ) ^ 2 * (sqnorm a : ℝ) * (sqnorm b : ℝ) ≤ (dot a b : ℝ) ^ 2 := by
          calc (θ : ℝ) ^ 2 * (sqnorm a : ℝ) * (sqnorm b : ℝ) = ((θ : ℝ) * s) ^ 2 := by
                rw [mul_pow, hssq]; ring
            _ ≤ ((dot a b : ℝ)) ^ 2 := h1
        exact_mod_cast h2
  · have hdr : (dot a b : ℝ) < 0 := by exact_mod_cast hd
    rw [if_neg (not_le.mpr hd)]
    constructor
    · intro h
      obtain ⟨hθ, hsq⟩ := of_decide_eq_true h
      have hθr : (θ : ℝ) ≤ 0 := by exact_mod_cast hθ
      have hcast : (dot a b : ℝ) ^ 2 ≤ (θ : ℝ) ^ 2 * (sqnorm a : ℝ) * (sqnorm b : ℝ) := by
        exact_mod_cast hsq
      have h1 : ((dot a b : ℝ)) ^ 2 ≤ ((θ : ℝ) * s) ^ 2 := by
        calc ((dot a b : ℝ)) ^ 2 ≤ (θ : ℝ) ^ 2 * (sqnorm a : ℝ) * (sqnorm b : ℝ) := hcast
          _ = ((θ : ℝ) * s) ^ 2 := by rw [mul_pow, hssq]; ring
      have hθs : (θ : ℝ) * s ≤ 0 := mul_nonpos_of_nonpos_of_nonneg hθr hspos.le
      have := le_of_sq_le_sq_aux (x := -(dot a b : ℝ)) (y := -((θ : ℝ) * s))
        (by linarith) (by linarith) (by nlinarith [h1])
      linarith
    · intro h
      apply decide_eq_true
      have hθs : (θ : ℝ) * s < 0 := lt_of_le_of_lt h hdr
      have hθr : (θ : ℝ) < 0 := by
        by_contra hcon
        push_neg at hcon
        nlinarith [hθs, hspos]
      refine ⟨by exact_mod_cast hθr.le, ?_⟩
      have h1 : ((dot a b : ℝ)) ^ 2 ≤ ((θ : ℝ) * s) ^ 2 := by
        nlinarith [h, hθs, hdr]
      have h2 : (dot a b : ℝ) ^ 2 ≤ (θ : ℝ) ^ 2 * (sqnorm a : ℝ) * (sqnorm b : ℝ) := by
        calc ((dot a b : ℝ)) ^ 2 ≤ ((θ : ℝ) * s) ^ 2 := h1
          _ = (θ : ℝ) ^ 2 * (sqnorm a : ℝ) * (sqnorm b : ℝ) := by rw [mul_pow, hssq]; ring
      exact_mod_cast h2

/-- A vector always has similarity `≥ θ` with itself when `θ ≤ 1`
(and its norm is nonzero). -/
theorem cosSimGe_self (v : List ℚ) (θ : ℚ) (hv : sqnorm v ≠ 0) (hθ : θ ≤ 1) :
    cosSimGe v v θ = true := by
  have hpos : 0 < sqnorm v := lt_of_le_of_ne (sqnorm_nonneg v) (Ne.symm hv)
  unfold cosSimGe
  rw [if_neg (by push_neg; exact ⟨hv, hv⟩)]
  rw [if_pos (by simpa [sqnorm] using hpos.le)]
  apply decide_eq_true
  rcases le_or_lt θ 0 with hθ0 | hθ0
  · exact Or.inl hθ0
  · refine Or.inr ?_
    have : θ ^ 2 ≤ 1 := by nlinarith
    have hd : dot v v = sqnorm v := rfl
    rw [hd]
    nlinarith [hpos]

/-- Ranking comparator used by the modelled vector index:
`sim(q, x) ≥ sim(q, y)`, encoded by cross-multiplied squares
(sign analysis on the two dot products; norms are nonnegative). -/
def simGeB (q x y : List ℚ) : Bool :=
  if 0 ≤ dot q x then
    if dot q y < 0 then true
    else decide ((dot q y) ^ 2 * sqnorm x ≤ (dot q x) ^ 2 * sqnorm y)
  else
    if dot q y < 0 then decide ((dot q x) ^ 2 * sqnorm y ≤ (dot q y) ^ 2 * sqnorm x)
    else false

/-! ### Metadata dictionaries

Python metadata dicts become insertion-ordered association lists:
overwriting a key keeps its position, a new key is appended. -/

/-- Values stored in metadata dicts by this codebase. -/
inductive MetaVal where
  | str (s : String)
  | num (q : ℚ)
  | strList (l : List (Option String))
  | flag (b : Bool)
deriving DecidableEq, Repr

/-- Metadata: an insertion-ordered string-keyed map. -/
abbrev Dict := List (String × MetaVal)

/-- First-match lookup in a string-keyed association list (Python `d.get`;
keys are kept unique by the update operations). -/
def alGet {β : Type} : List (String × β) → String → Option β
  | [], _ => none
  | p :: rest, k => if p.1 == k then some p.2 else alGet rest k

/-- Python `d.get(k)` on a metadata dict. -/
def dictGet (m : Dict) (k : String) : Option MetaVal :=
  alGet m k

/-- Python `d[k] = v` on an association list representing a dict:
overwrite the (unique) binding in place, else append.  (A Python dict
cannot hold a key twice, so replacing the first binding is exact.) -/
def alSet {β : Type} : List (String × β) → String → β → List (String × β)
  | [], k, v => [(k, v)]
  | p :: rest, k, v =>
    if p.1 == k then (k, v) :: rest else p :: alSet rest k v

/-- Python `d[k] = v` on a metadata dict. -/
def dictSet (m : Dict) (k : String) (v : MetaVal) : Dict :=
  alSet m k v

/-- Python `d[k] = v` for string-valued filter dicts. -/
def setKV (m : List (String × String)) (k v : String) : List (String × String) :=
  alSet m k v

/-- Python truthiness of an `Optional[str]` (`if session_id:`): present and
non-empty. -/
def optTruthy : Option String → Bool
  | none => false
  | some t => t != ""

/-! ### `app/config/settings.py` -/

/-- `Settings.DEDUPLICATION_THRESHOLD` (`settings.py` line 21). -/
def DEDUPLICATION_THRESHOLD : ℚ := 92/100

/-- `Settings.MIN_SEARCH_SCORE` (`settings.py` line 45). -/
def MIN_SEARCH_SCORE : ℚ := 3/10

/-! ### `app/memory/backends.py`: the long-term (vector) store

`QdrantLTMBackend` wraps the external Qdrant client and the embedding
model.  The embedding model is an arbitrary parameter
`encode : String → List ℚ`.  The client is modelled as an in-order list of
points; `uuid4` ids are modelled as fresh counter-derived ids, and search
is modelled per the adapter contract: hits matching the filters with
similarity at least `min_score`, ranked by cosine similarity to the query
vector, truncated to `top_k`, carrying their stored vectors.  The
`embedding` field is optional exactly as in the schema: the deduplication
loop in `long_term.py` guards on its absence. -/

/-- `LongTermMemoryEntry`.  Modelled from the spec: `app/memory/schema.py`
is not in the source tree; fields follow the spec's data model
(§3 LongTermEntry) and every use site in `backends.py`, `long_term.py` and
`memory_manager.py`. -/
structure LongTermMemoryEntry where
  id : String
  user_id : String
  text : String
  metadata : Dict
  embedding : Option (List ℚ)
  timestamp : ℤ
deriving DecidableEq, Repr

/-- State of the modelled Qdrant collection. -/
structure QdrantState where
  store : List LongTermMemoryEntry
  nextId : ℕ
deriving DecidableEq, Repr

def emptyQdrant : QdrantState := ⟨[], 0⟩

/-- Fresh id for a new point (models `uuid4`). -/
def freshId (n : ℕ) : String := "ltm-id-" ++ toString n

/-- Qdrant filter match: `user_id` is a top-level payload field, anything
else matches under `metadata.` (`backends.py` lines 265-274). -/
def entryMatches (filters : List (String × String)) (e : LongTermMemoryEntry) : Bool :=
  filters.all (fun kv =>
    if kv.1 == "user_id" then e.user_id == kv.2
    else dictGet e.metadata kv.1 == some (.str kv.2))

/-- `score_threshold` check for one point: a point without a vector cannot
be ranked by the vector index. -/
def vecScoreGe (qv : List ℚ) (emb : Option (List ℚ)) (min_score : ℚ) : Bool :=
  match emb with
  | some v => cosSimGe qv v min_score
  | none => false

/-- `if conversation_id: metadata["conversation_id"] = conversation_id`
(`backends.py` lines 246-248). -/
def withConversationId (metadata : Dict) : Option String → Dict
  | some cid => if cid != "" then dictSet metadata "conversation_id" (.str cid) else metadata
  | none => metadata

/-- `QdrantLTMBackend.add_entry` (`backends.py` lines 237-255). -/
def qdrantAddEntry (encode : String → List ℚ) (s : QdrantState)
    (user_id text : String) (metadata : Dict) (conversation_id : Option String)
    (now : ℤ) : Option String × QdrantState :=
  let embedding := encode text
  let entry_id := freshId s.nextId
  let md := withConversationId metadata conversation_id
  let entry : LongTermMemoryEntry :=
    { id := entry_id, user_id := user_id, text := text, metadata := md,
      embedding := some embedding, timestamp := now }
  (some entry_id, { store := s.store ++ [entry], nextId := s.nextId + 1 })

/-- `QdrantLTMBackend.search` (`backends.py` lines 257-291): filter, apply
`score_threshold`, rank by similarity (stable), truncate to `top_k`. -/
def qdrantSearch (encode : String → List ℚ) (s : QdrantState)
    (query_text : String) (top_k : ℕ) (filters : List (String × String))
    (min_score : ℚ) : List LongTermMemoryEntry :=
  let qv := encode query_text
  let hits := s.store.filter (fun e =>
    entryMatches filters e && vecScoreGe qv e.embedding min_score)
  (hits.insertionSort (fun e₁ e₂ =>
    simGeB qv (e₁.embedding.getD []) (e₂.embedding.getD []) = true)).take top_k

/-! ### `app/memory/long_term.py`: `LongTermMemory` (dedup wrapper) -/

/-- The deduplication loop of `LongTermMemory.add_entry`
(`long_term.py` lines 87-95): scan the fetched entries in order; an entry
with an embedding whose cosine similarity with the candidate reaches
`DEDUPLICATION_THRESHOLD` rejects the insertion; an entry without an
embedding is skipped. -/
def dedupHit (new_embedding : List ℚ) (existing_entries : List LongTermMemoryEntry) : Bool :=
  existing_entries.any (fun e =>
    match e.embedding with
    | some v => cosSimGe new_embedding v DEDUPLICATION_THRESHOLD
    | none => false)

/-- The scoped dedup filters of `add_entry` (`long_term.py` lines 76-78):
`{"user_id": user_id}` plus, when truthy, the conversation scope. -/
def dedupFilters (user_id : String) : Option String → List (String × String)
  | some cid => [("user_id", user_id)] ++ (if cid != "" then [("conversation_id", cid)] else [])
  | none => [("user_id", user_id)]

/-- `LongTermMemory.add_entry` (`long_term.py` lines 68-98): scoped
semantic search for the top 3 candidates, deduplication loop, then store
through the backend. -/
def ltmAddEntry (encode : String → List ℚ) (s : QdrantState)
    (user_id text : String) (metadata : Dict) (conversation_id : Option String)
    (now : ℤ) : Option String × QdrantState :=
  let search_filters := dedupFilters user_id conversation_id
  let existing_entries := qdrantSearch encode s text 3 search_filters MIN_SEARCH_SCORE
  let new_embedding := encode text
  if dedupHit new_embedding existing_entries then (none, s)
  else qdrantAddEntry encode s user_id text metadata conversation_id now

/-- `LongTermMemory.search` (`long_term.py` lines 100-109): delegates to
the backend. -/
def ltmSearch (encode : String → List ℚ) (s : QdrantState)
    (query_text : String) (top_k : ℕ) (filters : List (String × String))
    (min_score : ℚ) : List LongTermMemoryEntry :=
  qdrantSearch encode s query_text top_k filters min_score

/-- `LongTermMemory._texts_similar` (`long_term.py` lines 111-127):
token-set Jaccard similarity check.  Defined in the source but —
as proved below — never invoked by `add_entry`. -/
def textsSimilar (text1 text2 : String) (threshold : ℚ) : Bool :=
  let text1_clean := (trimChars text1.data).map Char.toLower
  let text2_clean := (trimChars text2.data).map Char.toLower
  if text1_clean == text2_clean then true
  else
    let words1 := (splitWords (String.mk text1_clean)).toFinset
    let words2 := (splitWords (String.mk text2_clean)).toFinset
    if words1 = ∅ ∨ words2 = ∅ then false
    else decide (((words1 ∩ words2).card : ℚ) / ((words1 ∪ words2).card : ℚ) ≥ threshold)

/-! ### `app/memory/backends.py` / `short_term.py`: the short-term store

`InMemorySTMBackend` keeps a dict of sessions, each a dict of keyed
entries; time is an explicit integer `now` and the TTL an integer `ttl`
in the same unit (`_is_expired` is `now - timestamp > ttl`). -/

/-- `ShortTermMemoryEntry`.  Modelled from the spec: `app/memory/schema.py`
is not in the source tree; per the spec's data model (§3 ShortTermEntry)
an entry carries its value and creation timestamp (the session id and key
are the map keys; the backend never reads them from the entry). -/
structure ShortTermMemoryEntry where
  value : String
  timestamp : ℤ
deriving DecidableEq, Repr

/-- `InMemorySTMBackend._store`: sessions in insertion order, each with its
keyed entries in insertion order (Python dict semantics). -/
abbrev STMStore := List (String × List (String × ShortTermMemoryEntry))

/-- `InMemorySTMBackend._is_expired` (`backends.py` lines 90-91). -/
def stmIsExpired (now ttl : ℤ) (timestamp : ℤ) : Bool :=
  now - timestamp > ttl

/-- `InMemorySTMBackend.set` (`backends.py` lines 55-56):
`_store.setdefault(session_id, {})[key] = entry`. -/
def stmBackendSet : STMStore → String → String → ShortTermMemoryEntry → STMStore
  | [], session_id, key, entry => [(session_id, [(key, entry)])]
  | p :: rest, session_id, key, entry =>
    if p.1 == session_id then (p.1, alSet p.2 key entry) :: rest
    else p :: stmBackendSet rest session_id key entry

/-- `InMemorySTMBackend.get` (`backends.py` lines 58-63): a missing or
expired entry is an absent value, never an error. -/
def stmBackendGet (st : STMStore) (session_id key : String) (now ttl : ℤ) :
    Option ShortTermMemoryEntry :=
  let session_data := (alGet st session_id).getD []
  match alGet session_data key with
  | some entry => if stmIsExpired now ttl entry.timestamp then none else some entry
  | none => none

/-- `InMemorySTMBackend.get_all` (`backends.py` lines 65-69): all
non-expired entries of a session, in insertion order. -/
def stmBackendGetAll (st : STMStore) (session_id : String) (now ttl : ℤ) :
    List (String × ShortTermMemoryEntry) :=
  ((alGet st session_id).getD []).filter
    (fun q => !stmIsExpired now ttl q.2.timestamp)

/-- `InMemorySTMBackend.clear` (`backends.py` lines 71-72). -/
def stmBackendClear (st : STMStore) (session_id : String) : STMStore :=
  st.filter (fun p => p.1 != session_id)

/-- `ShortTermMemory.set` (`short_term.py` lines 16-18): the schema stamps
the entry with the current time. -/
def stmSet (st : STMStore) (session_id key value : String) (now : ℤ) : STMStore :=
  stmBackendSet st session_id key { value := value, timestamp := now }

/-- `ShortTermMemory.get` (`short_term.py` lines 20-22):
`entry.value if entry else ""`. -/
def stmGet (st : STMStore) (session_id key : String) (now ttl : ℤ) : String :=
  match stmBackendGet st session_id key now ttl with
  | some entry => entry.value
  | none => ""

/-- `ShortTermMemory.get_all` (`short_term.py` lines 24-26). -/
def stmGetAll (st : STMStore) (session_id : String) (now ttl : ℤ) :
    List (String × String) :=
  (stmBackendGetAll st session_id now ttl).map (fun q => (q.1, q.2.value))

/-! ### `app/memory/memory_manager.py`: `MemoryManager` -/

/-- `MemoryEntry`.  Modelled from the spec: `app/memory/schema.py` is not
in the source tree; fields follow the spec's data model (§3 MemoryEntry)
and the construction sites in `memory_manager.py`. -/
structure MemoryEntry where
  id : Option String
  user_id : String
  text : String
  metadata : Dict
  timestamp : ℤ
  source : String
  importance : ℚ
deriving DecidableEq, Repr

/-- Combined engine state: the short-term store and the vector store. -/
structure MgrState where
  stm : STMStore
  ltm : QdrantState
deriving DecidableEq, Repr

/-- `metadata.get("importance", 0.5)` (`memory_manager.py` line 115);
an importance stored by this engine is always a number. -/
def importanceOf (md : Dict) : ℚ :=
  match dictGet md "importance" with
  | some (.num q) => q
  | _ => 1/2

/-- `MemoryManager.add_long_term` (`memory_manager.py` lines 70-89):
score when no importance is supplied, stamp it into the metadata, then
insert through the deduplicating `LongTermMemory.add_entry`. -/
def addLongTerm (encode : String → List ℚ) (s : MgrState)
    (user_id text : String) (metadata : Dict) (importance : Option ℚ)
    (conversation_id : Option String) (context : ScoreContext) (now : ℤ) :
    Option String × MgrState :=
  let imp := match importance with
    | some i => i
    | none => score_importance text context
  let md := dictSet metadata "importance" (.num imp)
  let r := ltmAddEntry encode s.ltm user_id text md conversation_id now
  (r.1, { s with ltm := r.2 })

/-- `MemoryManager.search_long_term` (`memory_manager.py` lines 91-118):
scope to the user, search the vector store, repackage as `MemoryEntry`. -/
def searchLongTerm (encode : String → List ℚ) (s : MgrState)
    (query : String) (user_id : Option String) (top_k : ℕ)
    (filters : List (String × String)) (min_score : ℚ) : List MemoryEntry :=
  let search_filters := match user_id with
    | some uid => if uid != "" then setKV filters "user_id" uid else filters
    | none => filters
  (ltmSearch encode s.ltm query top_k search_filters min_score).map (fun entry =>
    { id := some entry.id, user_id := entry.user_id, text := entry.text,
      metadata := entry.metadata, timestamp := entry.timestamp,
      source := "long_term", importance := importanceOf entry.metadata })

/-- The short-term matches collected by `MemoryManager.recall`
(`memory_manager.py` lines 133-146): session entries whose value contains
the query case-insensitively. -/
def stmMatches (st : STMStore) (session_id user_id query : String)
    (now ttl : ℤ) : List MemoryEntry :=
  ((stmGetAll st session_id now ttl).filter
      (fun kv => containsSeq (lowerChars query) (lowerChars kv.2))).map
    (fun kv =>
      { id := none, user_id := user_id, text := kv.2,
        metadata := [("key", .str kv.1)], timestamp := now,
        source := "short_term", importance := 1/2 })

/-- `MemoryManager.recall` (`memory_manager.py` lines 121-163).  The
second component records whether long-term storage was queried. -/
def recallEntries (encode : String → List ℚ) (s : MgrState)
    (user_id query : String) (session_id conversation_id : Option String)
    (top_k : ℕ) (now ttl : ℤ) : List MemoryEntry × Bool :=
  let fromLtm := fun (stm_entries : List MemoryEntry) =>
    let search_filters := match conversation_id with
      | some cid => if cid != "" then setKV [] "conversation_id" cid else []
      | none => []
    let ltm_entries :=
      searchLongTerm encode s query (some user_id) top_k search_filters (3/10)
    let combined := stm_entries ++
      ltm_entries.filter (fun e => !(stm_entries.any (fun x => x.text == e.text)))
    (combined.take top_k, true)
  match session_id with
  | some sid =>
    if sid != "" then
      let stm_entries := stmMatches s.stm sid user_id query now ttl
      if stm_entries.length ≥ top_k then (stm_entries.take top_k, false)
      else fromLtm stm_entries
    else fromLtm []
  | none => fromLtm []

/-- The promotion blob (`memory_manager.py` line 176):
`"\n".join(f"{k}: {v}" for k, v in stm_data.items())`. -/
def promotionBlob (stm_data : List (String × String)) : String :=
  String.intercalate "\n" (stm_data.map (fun kv => kv.1 ++ ": " ++ kv.2))

/-- `MemoryManager.promote_stm_to_ltm` (`memory_manager.py` lines
165-192): join the session's entries into one blob, score it with the
conversation length, and on success insert and clear the session. -/
def promoteStmToLtm (encode : String → List ℚ) (s : MgrState)
    (session_id user_id : String) (conversation_id : Option String)
    (min_importance : ℚ) (now ttl : ℤ) : Option String × MgrState :=
  let stm_data := stmGetAll s.stm session_id now ttl
  if stm_data.isEmpty then (none, s)
  else
    let combined_text := promotionBlob stm_data
    let context : ScoreContext := { conversation_length := stm_data.length }
    let score := score_importance combined_text context
    if score ≥ min_importance then
      let r := addLongTerm encode s user_id combined_text
        [("source", .str "stm_promotion")] (some score) conversation_id context now
      (r.1, { r.2 with stm := stmBackendClear r.2.stm session_id })
    else (none, s)

/-! ### `app/memory/search.py`: `AdvancedSearch._hybrid_search`

The merge of the two mode rankings (`search.py` lines 98-155).  The two
inputs are the result lists produced by the semantic and the keyword mode;
the merge itself is a pure list algorithm: build the `combined_results`
dict keyed by text (Python dict: insertion-ordered, overwrite keeps the
position), compute the weighted combined scores, stamp each entry's
`search_score`, and sort by it descending with Python's stable sort. -/

/-- One value of the `combined_results` dict. -/
structure HRow where
  key : String
  entry : MemoryEntry
  semantic_score : ℚ
  keyword_score : ℚ
deriving DecidableEq, Repr

/-- Normalized rank score `(N - i) / N` for position `i` in a list of
length `N` (`search.py` lines 112-116 and 126-130; for `N = 0` the loop
never runs and the guard yields `0`, as does rational division by zero). -/
def rankScore (N i : ℕ) : ℚ := ((N - i : ℕ) : ℚ) / (N : ℚ)

/-- `combined_results[key] = {entry, semantic_score, keyword_score: 0}`
(`search.py` lines 110-121): full overwrite of the (unique) row for the
key, position kept; else append. -/
def semanticInsert : List HRow → HRow → List HRow
  | [], r => [r]
  | x :: rest, r =>
    if x.key == r.key then r :: rest else x :: semanticInsert rest r

/-- The keyword pass on one result (`search.py` lines 124-141): update the
`keyword_score` of the (unique) existing row for the text, else append a
fresh row. -/
def keywordInsert : List HRow → MemoryEntry → ℚ → List HRow
  | [], e, ks => [{ key := e.text, entry := e, semantic_score := 0, keyword_score := ks }]
  | x :: rest, e, ks =>
    if x.key == e.text then { x with keyword_score := ks } :: rest
    else x :: keywordInsert rest e ks

/-- The row created for a semantic result at position `p.1` in a list of
length `N` (`search.py` lines 110-121): 70% weight on the rank score. -/
def mkSemRow (N : ℕ) (p : ℕ × MemoryEntry) : HRow :=
  { key := p.2.text, entry := p.2,
    semantic_score := rankScore N p.1 * (7/10), keyword_score := 0 }

/-- The keyword-mode weighted rank score for position `p.1` in a list of
length `M` (`search.py` lines 126-135): 30% weight. -/
def kwRankScore (M : ℕ) (p : ℕ × MemoryEntry) : ℚ :=
  rankScore M p.1 * (3/10)

/-- The `combined_results` dict after both passes (`search.py` lines
107-141), as an insertion-ordered row list. -/
def hybridRows (semantic_results keyword_results : List MemoryEntry) : List HRow :=
  let afterSem := semantic_results.enum.foldl
    (fun rows p => semanticInsert rows (mkSemRow semantic_results.length p))
    []
  keyword_results.enum.foldl
    (fun rows p => keywordInsert rows p.2 (kwRankScore keyword_results.length p))
    afterSem

/-- `x.metadata.get("search_score", 0)` (`search.py` line 153); the merge
always stamps a numeric score. -/
def searchScore (e : MemoryEntry) : ℚ :=
  match dictGet e.metadata "search_score" with
  | some (.num q) => q
  | _ => 0

/-- Sort key of the final ranking: combined score descending. -/
def scoreRel (a b : MemoryEntry) : Prop := searchScore b ≤ searchScore a

instance : DecidableRel scoreRel :=
  fun a b => inferInstanceAs (Decidable (searchScore b ≤ searchScore a))

instance : IsTotal MemoryEntry scoreRel :=
  ⟨fun a b => le_total (searchScore b) (searchScore a)⟩

instance : IsTrans MemoryEntry scoreRel :=
  ⟨fun _ _ _ hab hbc => le_trans hbc hab⟩

/-- One final row (`search.py` lines 144-150): the entry with its combined
score stamped into `metadata["search_score"]`. -/
def stampScore (r : HRow) : MemoryEntry :=
  { r.entry with
      metadata := dictSet r.entry.metadata "search_score"
        (.num (r.semantic_score + r.keyword_score)) }

/-- `final_results` before sorting (`search.py` lines 144-150). -/
def hybridScored (semantic_results keyword_results : List MemoryEntry) :
    List MemoryEntry :=
  (hybridRows semantic_results keyword_results).map stampScore

/-- The merged, scored and ranked hybrid list (`search.py` lines 143-154),
before the final `[:top_k]` truncation. -/
def hybridMerge (semantic_results keyword_results : List MemoryEntry) :
    List MemoryEntry :=
  (hybridScored semantic_results keyword_results).insertionSort scoreRel

/-- `AdvancedSearch._hybrid_search`'s return value (`search.py` line 155). -/
def hybridSearchOutput (semantic_results keyword_results : List MemoryEntry)
    (top_k : ℕ) : List MemoryEntry :=
  (hybridMerge semantic_results keyword_results).take top_k

/-! ### `app/memory/lifecycle.py`: consolidation

`MemoryLifecycleManager.consolidate_similar_memories` (`lifecycle.py`
lines 44-98) scans the owner's entries pairwise.  The functions below
return the `consolidated_from` id lists of the consolidated entries it
creates, in creation order; the same ids, group by group, are added to
`processed_ids` and passed to `_delete_memory` (which in this codebase is
a logging placeholder returning `True`). -/

/-- `MemoryLifecycleManager._calculate_similarity` (`lifecycle.py` lines
156-168): token-set Jaccard similarity. -/
def calculateSimilarity (text1 text2 : String) : ℚ :=
  let words1 := (splitWords (String.mk (lowerChars text1))).toFinset
  let words2 := (splitWords (String.mk (lowerChars text2))).toFinset
  if words1 ∪ words2 = ∅ then 0
  else ((words1 ∩ words2).card : ℚ) / ((words1 ∪ words2).card : ℚ)

/-- The outer loop of `consolidate_similar_memories`: `pending` is the
tail of `all_memories` still to visit, `processed` the accumulated
`processed_ids` (insertion order; membership is what matters). -/
def consolidateGo (threshold : ℚ) :
    List MemoryEntry → List (Option String) → List (List (Option String))
  | [], _ => []
  | m1 :: rest, processed =>
    if processed.contains m1.id then consolidateGo threshold rest processed
    else
      let similar := rest.filter (fun m2 =>
        !(processed.contains m2.id) &&
          decide (calculateSimilarity m1.text m2.text ≥ threshold))
      if similar.isEmpty then consolidateGo threshold rest processed
      else
        let group := (m1 :: similar).map (fun m => m.id)
        group :: consolidateGo threshold rest (processed ++ group)

/-- The `consolidated_from` lists produced by one run of
`consolidate_similar_memories` over `all_memories`. -/
def consolidationGroups (all_memories : List MemoryEntry) (threshold : ℚ) :
    List (List (Option String)) :=
  consolidateGo threshold all_memories []

/-- The ids passed to `_delete_memory` during the run, in call order. -/
def consolidationDeleted (all_memories : List MemoryEntry) (threshold : ℚ) :
    List (Option String) :=
  (consolidationGroups all_memories threshold).flatten

/-- `MemoryLifecycleManager._delete_memory` (`lifecycle.py` lines
119-129): the deletion call is commented out; the method logs
`"Would delete memory {id}"` and returns `True`, leaving the engine state
unchanged. -/
def deleteMemory (s : MgrState) (_memory_id : Option String) : Bool × MgrState :=
  (true, s)

/-- The aggregate state effect of the `_delete_memory` calls issued during
one consolidation run, in call order. -/
def runDeletes (s : MgrState) (ids : List (Option String)) : MgrState :=
  ids.foldl (fun st i => (deleteMemory st i).2) s

/-! ### Association-list (Python dict) lemmas -/

theorem alGet_alSet_self {β : Type} (m : List (String × β)) (k : String) (v : β) :
    alGet (alSet m k v) k = some v := by
  induction m with
  | nil => simp [alGet, alSet]
  | cons p rest ih =>
    cases hp : (p.1 == k) with
    | true => simp [alSet, alGet, hp]
    | false => simp [alSet, alGet, hp, ih]

theorem alGet_alSet_ne {β : Type} (m : List (String × β)) (k k' : String)
    (v : β) (h : k ≠ k') : alGet (alSet m k v) k' = alGet m k' := by
  induction m with
  | nil => simp [alGet, alSet, beq_false_of_ne h]
  | cons p rest ih =>
    cases hp : (p.1 == k) with
    | true =>
      have hpk : p.1 = k := eq_of_beq hp
      simp [alSet, alGet, hp, beq_false_of_ne h, beq_false_of_ne (hpk ▸ h), hpk]
    | false => simp [alSet, alGet, hp, ih]

theorem dictGet_dictSet_self (m : Dict) (k : String) (v : MetaVal) :
    dictGet (dictSet m k v) k = some v :=
  alGet_alSet_self m k v

theorem dictGet_dictSet_ne (m : Dict) (k k' : String) (v : MetaVal)
    (h : k ≠ k') : dictGet (dictSet m k v) k' = dictGet m k' :=
  alGet_alSet_ne m k k' v h

set_option maxRecDepth 8000

/-! ### Claim theorems -/

/-- **C6** — Scorer purity and range: `score_importance` is a pure function
of `(text, context)` (repeated calls return identical values), its result
lies in `[0, 1]`, and in particular
`score("What is the deadline? This is urgent, call ASAP", {})` is strictly
greater than `score("ok", {})`. -/
theorem scorer_pure_range_and_scenario (t : String) (c : ScoreContext) :
    score_importance t c = score_importance t c ∧
    0 ≤ score_importance t c ∧ score_importance t c ≤ 1 ∧
    score_importance "What is the deadline? This is urgent, call ASAP" {} >
      score_importance "ok" {} := by
  refine ⟨rfl, score_importance_nonneg t c, score_importance_le_one t c, ?_⟩
  have e1 : score_importance "What is the deadline? This is urgent, call ASAP" {} = 1 := by
    have h1 : (high_importance_keywords.filter
        (fun w => containsSeq w.data
          (lowerChars "What is the deadline? This is urgent, call ASAP"))).length = 4 := by
      decide
    have h2 : (medium_importance_keywords.filter
        (fun w => containsSeq w.data
          (lowerChars "What is the deadline? This is urgent, call ASAP"))).length = 0 := by
      decide
    have h3 : ("What is the deadline? This is urgent, call ASAP" : String).length = 47 := by
      decide
    have h4 : ("What is the deadline? This is urgent, call ASAP" : String).data.contains '?'
        || startsWithAny (lowerChars "What is the deadline? This is urgent, call ASAP")
          ["what", "how", "why", "when", "where"] = true := by decide
    simp only [score_importance, h1, h2, h3, h4]
    norm_num [lengthBonus]
  have e2 : score_importance "ok" {} = 0 := by
    have h1 : (high_importance_keywords.filter
        (fun w => containsSeq w.data (lowerChars "ok"))).length = 0 := by decide
    have h2 : (medium_importance_keywords.filter
        (fun w => containsSeq w.data (lowerChars "ok"))).length = 0 := by decide
    have h3 : ("ok" : String).length = 2 := by decide
    have h4 : (("ok" : String).data.contains '?'
        || startsWithAny (lowerChars "ok") ["what", "how", "why", "when", "where"]) = false := by
      decide
    simp only [score_importance, h1, h2, h3, h4]
    norm_num [lengthBonus]
  rw [e1, e2]
  norm_num

/-- **C9** — Scorer length-bonus dead branch: any text longer than 200
characters gets a length bonus of exactly `0.1`, and the `0.2` branch of
`lengthBonus` can never fire (its guard `len > 500` is only reached when
`len ≤ 200`). -/
theorem length_bonus_dead_branch (n : ℕ) :
    (200 < n → lengthBonus n = 1/10) ∧ lengthBonus n ≠ 2/10 := by
  constructor
  · intro h
    simp [lengthBonus, h]
  · unfold lengthBonus
    split
    · norm_num
    · next h1 =>
      split
      · next h2 => exact absurd (by omega : 200 < n) h1
      · norm_num

/-- Witness for C9 at a concrete length above both thresholds. -/
theorem length_bonus_dead_branch_witness :
    lengthBonus 600 = 1/10 ∧ lengthBonus 600 ≠ 2/10 :=
  ⟨(length_bonus_dead_branch 600).1 (by norm_num), (length_bonus_dead_branch 600).2⟩

/-- **C10** — `get_short_term` never raises on a lookup miss (the model is
a total function) and returns `""` when the key is absent, when the stored
entry's age exceeds the TTL, and when the stored value is the empty
string — so at this interface a stored `""` is indistinguishable from an
absent or expired key. -/
theorem stm_get_miss_or_expired (st : STMStore) (sid key : String) (now ttl : ℤ) :
    (alGet ((alGet st sid).getD []) key = none →
        stmGet st sid key now ttl = "") ∧
    (∀ e, alGet ((alGet st sid).getD []) key = some e →
        stmIsExpired now ttl e.timestamp = true →
        stmGet st sid key now ttl = "") ∧
    (∀ e, alGet ((alGet st sid).getD []) key = some e → e.value = "" →
        stmGet st sid key now ttl = "") := by
  refine ⟨?_, ?_, ?_⟩
  · intro h
    simp [stmGet, stmBackendGet, h]
  · intro e he hexp
    simp [stmGet, stmBackendGet, he, hexp]
  · intro e he hv
    cases hexp : stmIsExpired now ttl e.timestamp <;>
      simp [stmGet, stmBackendGet, he, hexp, hv]

/-- Witness for C10: a concrete store exercising the absent key, the
expired key, and the stored empty string. -/
theorem stm_get_miss_or_expired_witness :
    stmGet [("s", [("k", ⟨"", 90⟩), ("old", ⟨"v", 0⟩)])] "s" "absent" 100 10 = "" ∧
    stmGet [("s", [("k", ⟨"", 90⟩), ("old", ⟨"v", 0⟩)])] "s" "old" 100 10 = "" ∧
    stmGet [("s", [("k", ⟨"", 90⟩), ("old", ⟨"v", 0⟩)])] "s" "k" 100 10 = "" :=
  ⟨(stm_get_miss_or_expired _ "s" "absent" 100 10).1 (by decide),
   (stm_get_miss_or_expired _ "s" "old" 100 10).2.1 ⟨"v", 0⟩ (by decide) (by decide),
   (stm_get_miss_or_expired _ "s" "k" 100 10).2.2 ⟨"", 90⟩ (by decide) rfl⟩

/-- **C2** — Recall short-circuit: when a session id is given and the
session's short-term matches (values containing the query
case-insensitively) already reach the desired count, `recall` returns the
first `top_k` of those matches and long-term storage is never queried
(the second component of `recallEntries` records whether the long-term
search was invoked). -/
theorem recall_short_circuit (encode : String → List ℚ) (s : MgrState)
    (user_id query sid : String) (conversation_id : Option String)
    (top_k : ℕ) (now ttl : ℤ) (hsid : sid ≠ "")
    (hlen : (stmMatches s.stm sid user_id query now ttl).length ≥ top_k) :
    recallEntries encode s user_id query (some sid) conversation_id top_k now ttl =
      ((stmMatches s.stm sid user_id query now ttl).take top_k, false) := by
  unfold recallEntries
  have h1 : (sid != "") = true := by simpa using hsid
  simp only [h1, if_true, if_pos hlen]

/-- Witness for C2: one matching short-term entry, desired count 1; the
long-term store is never consulted. -/
theorem recall_short_circuit_witness :
    recallEntries (fun _ => [1]) ⟨[("s1", [("k", ⟨"urgent news today", 0⟩)])], emptyQdrant⟩
        "u1" "URGENT" (some "s1") none 1 5 30 =
      ((stmMatches [("s1", [("k", ⟨"urgent news today", 0⟩)])] "s1" "u1" "URGENT" 5 30).take 1,
        false) :=
  recall_short_circuit (fun _ => [1]) _ "u1" "URGENT" "s1" none 1 5 30
    (by decide) (by decide)

/-- **C1** — Deduplicated insertion: `add_entry` fetches the top 3 scoped
candidates; if the dedup loop finds one whose embedding has cosine
similarity `≥ DEDUPLICATION_THRESHOLD` with the candidate's embedding
(`dedupHit`, with `cosSimGe` the square-free encoding of the comparison,
see `cosSimGe_iff_real`), no id is returned and the store is unchanged;
otherwise the entry is inserted and its fresh id returned.  Inserting the
same text twice for the same owner (from an empty store, with a nonzero
embedding) stores exactly one entry and the second call returns no id. -/
theorem dedup_insertion (encode : String → List ℚ) (s : QdrantState)
    (user_id text : String) (metadata : Dict) (conversation_id : Option String)
    (now : ℤ) :
    (dedupHit (encode text)
        (qdrantSearch encode s text 3 (dedupFilters user_id conversation_id)
          MIN_SEARCH_SCORE) = true →
      ltmAddEntry encode s user_id text metadata conversation_id now = (none, s)) ∧
    (dedupHit (encode text)
        (qdrantSearch encode s text 3 (dedupFilters user_id conversation_id)
          MIN_SEARCH_SCORE) = false →
      ∃ e : LongTermMemoryEntry, e.text = text ∧ e.user_id = user_id ∧
        ltmAddEntry encode s user_id text metadata conversation_id now =
          (some e.id, { store := s.store ++ [e], nextId := s.nextId + 1 })) ∧
    (sqnorm (encode text) ≠ 0 →
      ltmAddEntry encode emptyQdrant user_id text metadata none now =
        (some (freshId 0),
          { store := [{ id := freshId 0, user_id := user_id, text := text,
                        metadata := metadata, embedding := some (encode text),
                        timestamp := now }],
            nextId := 1 }) ∧
      ltmAddEntry encode
          (ltmAddEntry encode emptyQdrant user_id text metadata none now).2
          user_id text metadata none now =
        (none, (ltmAddEntry encode emptyQdrant user_id text metadata none now).2) ∧
      (ltmAddEntry encode emptyQdrant user_id text metadata none now).2.store.length = 1) := by
  refine ⟨?_, ?_, ?_⟩
  · intro h
    simp only [ltmAddEntry, h, if_true]
  · intro h
    refine ⟨{ id := freshId s.nextId, user_id := user_id, text := text,
              metadata := withConversationId metadata conversation_id,
              embedding := some (encode text), timestamp := now }, rfl, rfl, ?_⟩
    simp only [ltmAddEntry, h, Bool.false_eq_true, if_false, qdrantAddEntry]
  · intro h
    have hfirst : ltmAddEntry encode emptyQdrant user_id text metadata none now =
        (some (freshId 0),
          { store := [{ id := freshId 0, user_id := user_id, text := text,
                        metadata := metadata, embedding := some (encode text),
                        timestamp := now }],
            nextId := 1 }) := by
      simp [ltmAddEntry, qdrantSearch, dedupHit, qdrantAddEntry, emptyQdrant,
        withConversationId, List.insertionSort]
    have hmatch : entryMatches [("user_id", user_id)]
        { id := freshId 0, user_id := user_id, text := text,
          metadata := metadata, embedding := some (encode text),
          timestamp := now } = true := by
      simp [entryMatches]
    have hvs : vecScoreGe (encode text) (some (encode text)) MIN_SEARCH_SCORE = true := by
      simp only [vecScoreGe]
      exact cosSimGe_self _ _ h (by norm_num [MIN_SEARCH_SCORE])
    have hsearch : qdrantSearch encode
        { store := [{ id := freshId 0, user_id := user_id, text := text,
                      metadata := metadata, embedding := some (encode text),
                      timestamp := now }],
          nextId := 1 } text 3 (dedupFilters user_id none) MIN_SEARCH_SCORE =
        [{ id := freshId 0, user_id := user_id, text := text,
           metadata := metadata, embedding := some (encode text),
           timestamp := now }] := by
      simp [qdrantSearch, dedupFilters, hmatch, hvs, List.insertionSort]
    have hdedup : dedupHit (encode text)
        [{ id := freshId 0, user_id := user_id, text := text,
           metadata := metadata, embedding := some (encode text),
           timestamp := now }] = true := by
      simp only [dedupHit, List.any_cons, List.any_nil, Bool.or_false]
      exact cosSimGe_self _ _ h (by norm_num [DEDUPLICATION_THRESHOLD])
    have hsecond : ltmAddEntry encode
        { store := [{ id := freshId 0, user_id := user_id, text := text,
                      metadata := metadata, embedding := some (encode text),
                      timestamp := now }],
          nextId := 1 } user_id text metadata none now =
        (none,
          { store := [{ id := freshId 0, user_id := user_id, text := text,
                        metadata := metadata, embedding := some (encode text),
                        timestamp := now }],
            nextId := 1 }) := by
      simp only [ltmAddEntry, hsearch, hdedup, if_true]
    refine ⟨hfirst, ?_, ?_⟩
    · rw [hfirst]
      exact hsecond
    · rw [hfirst]
      rfl

/-- Witness for C1: with a one-point embedding model, an existing identical
entry rejects the insertion (hit branch), an empty store accepts it
(insert branch), and two identical inserts from empty leave one entry. -/
theorem dedup_insertion_witness :
    (ltmAddEntry (fun _ => [1]) ⟨[⟨"ltm-id-0", "u1", "I like pizza", [], some [1], 0⟩], 1⟩
        "u1" "I like pizza" [] none 0 =
      (none, ⟨[⟨"ltm-id-0", "u1", "I like pizza", [], some [1], 0⟩], 1⟩)) ∧
    (∃ e : LongTermMemoryEntry, e.text = "I like pizza" ∧ e.user_id = "u1" ∧
      ltmAddEntry (fun _ => [1]) emptyQdrant "u1" "I like pizza" [] none 0 =
        (some e.id,
          { store := emptyQdrant.store ++ [e], nextId := emptyQdrant.nextId + 1 })) ∧
    ((ltmAddEntry (fun _ => [1]) emptyQdrant "u1" "I like pizza" [] none 0).2.store.length = 1 ∧
      ltmAddEntry (fun _ => [1])
          (ltmAddEntry (fun _ => [1]) emptyQdrant "u1" "I like pizza" [] none 0).2
          "u1" "I like pizza" [] none 0 =
        (none, (ltmAddEntry (fun _ => [1]) emptyQdrant "u1" "I like pizza" [] none 0).2)) := by
  refine ⟨(dedup_insertion (fun _ => [1]) _ "u1" "I like pizza" [] none 0).1 ?_,
          (dedup_insertion (fun _ => [1]) emptyQdrant "u1" "I like pizza" [] none 0).2.1 ?_,
          ?_⟩
  · norm_num [dedupHit, qdrantSearch, dedupFilters, entryMatches, vecScoreGe, cosSimGe,
      dot, sqnorm, MIN_SEARCH_SCORE, DEDUPLICATION_THRESHOLD,
      List.insertionSort, List.orderedInsert, decide_eq_true_eq]
  · decide
  · obtain ⟨_, hs, hl⟩ :=
      (dedup_insertion (fun _ => [1]) emptyQdrant "u1" "I like pizza" [] none 0).2.2
        (by norm_num [sqnorm, dot])
    exact ⟨hl, hs⟩

theorem alGet_filter_ne {β : Type} (st : List (String × β)) (sid : String) :
    alGet (st.filter (fun p => p.1 != sid)) sid = none := by
  induction st with
  | nil => rfl
  | cons p rest ih =>
    cases hp : (p.1 == sid) with
    | true => simpa [List.filter_cons, bne, hp] using ih
    | false => simpa [List.filter_cons, bne, hp, alGet] using ih

/-- After `clear(session_id)`, `get_all(session_id)` is empty. -/
theorem stmGetAll_clear (st : STMStore) (sid : String) (now ttl : ℤ) :
    stmGetAll (stmBackendClear st sid) sid now ttl = [] := by
  simp [stmGetAll, stmBackendGetAll, stmBackendClear, alGet_filter_ne]

theorem promote_reject_of_dedupHit (encode : String → List ℚ) (s : MgrState)
    (session_id user_id : String) (conversation_id : Option String)
    (min_importance : ℚ) (now ttl : ℤ)
    (hne : stmGetAll s.stm session_id now ttl ≠ [])
    (hge : min_importance ≤
      score_importance (promotionBlob (stmGetAll s.stm session_id now ttl))
        { conversation_length := (stmGetAll s.stm session_id now ttl).length })
    (hdedup : dedupHit (encode (promotionBlob (stmGetAll s.stm session_id now ttl)))
        (qdrantSearch encode s.ltm (promotionBlob (stmGetAll s.stm session_id now ttl)) 3
          (dedupFilters user_id conversation_id) MIN_SEARCH_SCORE) = true) :
    promoteStmToLtm encode s session_id user_id conversation_id min_importance now ttl =
      (none, ⟨stmBackendClear s.stm session_id, s.ltm⟩) := by
  have hf : (stmGetAll s.stm session_id now ttl).isEmpty = false := by
    cases hl : stmGetAll s.stm session_id now ttl with
    | nil => exact absurd hl hne
    | cons a l => simp
  simp only [promoteStmToLtm, hf, Bool.false_eq_true, if_false]
  rw [if_pos hge]
  simp only [addLongTerm, ltmAddEntry, hdedup, if_true]

/-- **C5** (amended) — Promotion contract: for a non-empty session, the
session's entries are joined into one newline blob (`promotionBlob`),
scored with `conversation_length` set to the entry count; if the score is
below `min_importance` nothing changes and no id is returned; if the score
reaches `min_importance` and the blob passes the write path's
deduplication gate, the blob is inserted tagged `source=stm_promotion`
with the score as its importance, the session is cleared (a subsequent
`get_all` is empty), and the new id is returned; if the score reaches
`min_importance` but the deduplication gate rejects the blob, nothing is
inserted and no id is returned, yet the session is still cleared. -/
theorem promotion_contract (encode : String → List ℚ) (s : MgrState)
    (session_id user_id : String) (conversation_id : Option String)
    (min_importance : ℚ) (now ttl : ℤ)
    (hne : stmGetAll s.stm session_id now ttl ≠ []) :
    (score_importance (promotionBlob (stmGetAll s.stm session_id now ttl))
        { conversation_length := (stmGetAll s.stm session_id now ttl).length } <
          min_importance →
      promoteStmToLtm encode s session_id user_id conversation_id min_importance now ttl
        = (none, s)) ∧
    (min_importance ≤
        score_importance (promotionBlob (stmGetAll s.stm session_id now ttl))
          { conversation_length := (stmGetAll s.stm session_id now ttl).length } →
      dedupHit (encode (promotionBlob (stmGetAll s.stm session_id now ttl)))
          (qdrantSearch encode s.ltm (promotionBlob (stmGetAll s.stm session_id now ttl)) 3
            (dedupFilters user_id conversation_id) MIN_SEARCH_SCORE) = false →
      ∃ e : LongTermMemoryEntry,
        e.text = promotionBlob (stmGetAll s.stm session_id now ttl) ∧
        dictGet e.metadata "source" = some (.str "stm_promotion") ∧
        dictGet e.metadata "importance" = some (.num
          (score_importance (promotionBlob (stmGetAll s.stm session_id now ttl))
            { conversation_length := (stmGetAll s.stm session_id now ttl).length })) ∧
        promoteStmToLtm encode s session_id user_id conversation_id min_importance now ttl
          = (some e.id,
              { stm := stmBackendClear s.stm session_id,
                ltm := { store := s.ltm.store ++ [e], nextId := s.ltm.nextId + 1 } }) ∧
        stmGetAll (stmBackendClear s.stm session_id) session_id now ttl = []) ∧
    (min_importance ≤
        score_importance (promotionBlob (stmGetAll s.stm session_id now ttl))
          { conversation_length := (stmGetAll s.stm session_id now ttl).length } →
      dedupHit (encode (promotionBlob (stmGetAll s.stm session_id now ttl)))
          (qdrantSearch encode s.ltm (promotionBlob (stmGetAll s.stm session_id now ttl)) 3
            (dedupFilters user_id conversation_id) MIN_SEARCH_SCORE) = true →
      promoteStmToLtm encode s session_id user_id conversation_id min_importance now ttl =
        (none, ⟨stmBackendClear s.stm session_id, s.ltm⟩)) := by
  have hf : (stmGetAll s.stm session_id now ttl).isEmpty = false := by
    cases hl : stmGetAll s.stm session_id now ttl with
    | nil => exact absurd hl hne
    | cons a l => simp
  refine ⟨?_, ?_, fun hge hdedup => promote_reject_of_dedupHit encode s session_id
    user_id conversation_id min_importance now ttl hne hge hdedup⟩
  · intro hlt
    simp only [promoteStmToLtm, hf, Bool.false_eq_true, if_false]
    rw [if_neg (not_le.mpr hlt)]
  · intro hge hdedup
    set D := stmGetAll s.stm session_id now ttl with hD
    set sc := score_importance (promotionBlob D) { conversation_length := D.length } with hsc
    set md := dictSet [("source", MetaVal.str "stm_promotion")] "importance" (.num sc) with hmd
    have hmd_source : dictGet md "source" = some (.str "stm_promotion") := by
      rw [hmd, dictGet_dictSet_ne _ _ _ _ (by decide)]
      simp [dictGet, alGet]
    have hmd_imp : dictGet md "importance" = some (.num sc) := by
      rw [hmd]
      exact dictGet_dictSet_self _ _ _
    have h1 : dictGet (withConversationId md conversation_id) "source" =
        some (.str "stm_promotion") := by
      cases conversation_id with
      | none => exact hmd_source
      | some cid =>
        cases hc : (cid != "") with
        | true =>
          simp only [withConversationId, hc, if_true]
          rw [dictGet_dictSet_ne _ _ _ _ (by decide)]
          exact hmd_source
        | false =>
          simp only [withConversationId, hc, Bool.false_eq_true, if_false]
          exact hmd_source
    have h2 : dictGet (withConversationId md conversation_id) "importance" =
        some (.num sc) := by
      cases conversation_id with
      | none => exact hmd_imp
      | some cid =>
        cases hc : (cid != "") with
        | true =>
          simp only [withConversationId, hc, if_true]
          rw [dictGet_dictSet_ne _ _ _ _ (by decide)]
          exact hmd_imp
        | false =>
          simp only [withConversationId, hc, Bool.false_eq_true, if_false]
          exact hmd_imp
    refine ⟨{ id := freshId s.ltm.nextId, user_id := user_id,
              text := promotionBlob D,
              metadata := withConversationId md conversation_id,
              embedding := some (encode (promotionBlob D)), timestamp := now },
            rfl, h1, h2, ?_, stmGetAll_clear s.stm session_id now ttl⟩
    simp only [promoteStmToLtm, hf, Bool.false_eq_true, if_false, ← hD, ← hsc]
    rw [if_pos hge]
    simp only [addLongTerm, ← hmd, ltmAddEntry, hdedup, Bool.false_eq_true, if_false,
      qdrantAddEntry]

/-- **C5** (counterexample) — the claim fails as stated: with the session
blob scoring `0.6 ≥ 0.2` (branch (a)'s antecedent) but an identical entry
already stored, the write path's deduplication gate rejects the blob, so
`promote_stm_to_ltm` inserts nothing and returns no id — yet it still
clears the session. -/
theorem promotion_dedup_cex :
    ((1 : ℚ)/5 ≤
      score_importance
        (promotionBlob (stmGetAll [("s1", [("k", ⟨"urgent: call client", 0⟩)])] "s1" 5 30))
        { conversation_length :=
            (stmGetAll [("s1", [("k", ⟨"urgent: call client", 0⟩)])] "s1" 5 30).length }) ∧
    promoteStmToLtm (fun _ => [1])
        ⟨[("s1", [("k", ⟨"urgent: call client", 0⟩)])],
         ⟨[⟨"ltm-id-0", "u1", "k: urgent: call client", [], some [1], 0⟩], 1⟩⟩
        "s1" "u1" none (1/5) 5 30 =
      (none,
        ⟨stmBackendClear [("s1", [("k", ⟨"urgent: call client", 0⟩)])] "s1",
         ⟨[⟨"ltm-id-0", "u1", "k: urgent: call client", [], some [1], 0⟩], 1⟩⟩) := by
  have hD : stmGetAll [("s1", [("k", ⟨"urgent: call client", 0⟩)])] "s1" 5 30 =
      [("k", "urgent: call client")] := by decide
  have hblob : promotionBlob [("k", "urgent: call client")] = "k: urgent: call client" := by
    decide
  have hscore : score_importance "k: urgent: call client" { conversation_length := 1 } =
      3/5 := by
    have h1 : (high_importance_keywords.filter
        (fun w => containsSeq w.data (lowerChars "k: urgent: call client"))).length = 2 := by
      decide
    have h2 : (medium_importance_keywords.filter
        (fun w => containsSeq w.data (lowerChars "k: urgent: call client"))).length = 0 := by
      decide
    have h3 : ("k: urgent: call client" : String).length = 22 := by decide
    have h4 : (("k: urgent: call client" : String).data.contains '?'
        || startsWithAny (lowerChars "k: urgent: call client")
          ["what", "how", "why", "when", "where"]) = false := by decide
    simp only [score_importance, h1, h2, h3, h4]
    norm_num [lengthBonus]
  have hsval : score_importance
      (promotionBlob (stmGetAll [("s1", [("k", ⟨"urgent: call client", 0⟩)])] "s1" 5 30))
      { conversation_length :=
          (stmGetAll [("s1", [("k", ⟨"urgent: call client", 0⟩)])] "s1" 5 30).length } =
      3/5 := by
    rw [hD]
    simpa [hblob] using hscore
  have hge : (1 : ℚ)/5 ≤
      score_importance
        (promotionBlob (stmGetAll [("s1", [("k", ⟨"urgent: call client", 0⟩)])] "s1" 5 30))
        { conversation_length :=
            (stmGetAll [("s1", [("k", ⟨"urgent: call client", 0⟩)])] "s1" 5 30).length } := by
    rw [hsval]
    norm_num
  have hne : stmGetAll [("s1", [("k", ⟨"urgent: call client", 0⟩)])] "s1" 5 30 ≠ [] := by
    rw [hD]
    simp
  have hdedup : ∀ t : String, dedupHit ((fun _ => ([1] : List ℚ)) t)
      (qdrantSearch (fun _ => [1])
        ⟨[⟨"ltm-id-0", "u1", "k: urgent: call client", [], some [1], 0⟩], 1⟩
        t 3 (dedupFilters "u1" none) MIN_SEARCH_SCORE) = true := by
    intro t
    norm_num [dedupHit, qdrantSearch, dedupFilters, entryMatches, vecScoreGe, cosSimGe,
      dot, sqnorm, MIN_SEARCH_SCORE, DEDUPLICATION_THRESHOLD,
      List.insertionSort, List.orderedInsert, decide_eq_true_eq]
  exact ⟨hge,
    promote_reject_of_dedupHit (fun _ => [1])
      ⟨[("s1", [("k", ⟨"urgent: call client", 0⟩)])],
       ⟨[⟨"ltm-id-0", "u1", "k: urgent: call client", [], some [1], 0⟩], 1⟩⟩
      "s1" "u1" none (1/5) 5 30 hne hge (hdedup _)⟩

/-- Witness for the amended C5: one session entry `"k" : "urgent: call
client"` (blob score `0.6`); with `min_importance = 0.2` and an empty
long-term store promotion returns a new id and clears the session; with
`min_importance = 0.7` nothing changes; with `min_importance = 0.2` but a
duplicate already stored the dedup gate rejects, no id is returned and the
session is still cleared. -/
theorem promotion_contract_witness :
    promoteStmToLtm (fun _ => [1])
        ⟨[("s1", [("k", ⟨"urgent: call client", 0⟩)])], emptyQdrant⟩
        "s1" "u1" none (7/10) 5 30 =
      (none, ⟨[("s1", [("k", ⟨"urgent: call client", 0⟩)])], emptyQdrant⟩) ∧
    (∃ e : LongTermMemoryEntry,
      e.text = "k: urgent: call client" ∧
      dictGet e.metadata "source" = some (.str "stm_promotion") ∧
      (promoteStmToLtm (fun _ => [1])
          ⟨[("s1", [("k", ⟨"urgent: call client", 0⟩)])], emptyQdrant⟩
          "s1" "u1" none (1/5) 5 30).1 = some e.id) ∧
    stmGetAll (stmBackendClear [("s1", [("k", ⟨"urgent: call client", 0⟩)])] "s1")
      "s1" 5 30 = [] ∧
    promoteStmToLtm (fun _ => [1])
        ⟨[("s1", [("k", ⟨"urgent: call client", 0⟩)])],
         ⟨[⟨"ltm-id-9", "u1", "k: urgent: call client", [], some [1], 0⟩], 1⟩⟩
        "s1" "u1" none (1/5) 5 30 =
      (none,
        ⟨stmBackendClear [("s1", [("k", ⟨"urgent: call client", 0⟩)])] "s1",
         ⟨[⟨"ltm-id-9", "u1", "k: urgent: call client", [], some [1], 0⟩], 1⟩⟩) := by
  have hD : stmGetAll [("s1", [("k", ⟨"urgent: call client", 0⟩)])] "s1" 5 30 =
      [("k", "urgent: call client")] := by decide
  have hblob : promotionBlob [("k", "urgent: call client")] = "k: urgent: call client" := by
    decide
  have hscore : score_importance "k: urgent: call client" { conversation_length := 1 } =
      3/5 := by
    have h1 : (high_importance_keywords.filter
        (fun w => containsSeq w.data (lowerChars "k: urgent: call client"))).length = 2 := by
      decide
    have h2 : (medium_importance_keywords.filter
        (fun w => containsSeq w.data (lowerChars "k: urgent: call client"))).length = 0 := by
      decide
    have h3 : ("k: urgent: call client" : String).length = 22 := by decide
    have h4 : (("k: urgent: call client" : String).data.contains '?'
        || startsWithAny (lowerChars "k: urgent: call client")
          ["what", "how", "why", "when", "where"]) = false := by decide
    simp only [score_importance, h1, h2, h3, h4]
    norm_num [lengthBonus]
  have hne : stmGetAll [("s1", [("k", ⟨"urgent: call client", 0⟩)])] "s1" 5 30 ≠ [] := by
    rw [hD]
    simp
  have hsval : score_importance
      (promotionBlob (stmGetAll [("s1", [("k", ⟨"urgent: call client", 0⟩)])] "s1" 5 30))
      { conversation_length :=
          (stmGetAll [("s1", [("k", ⟨"urgent: call client", 0⟩)])] "s1" 5 30).length } =
      3/5 := by
    rw [hD]
    simpa [hblob] using hscore
  refine ⟨?_, ?_, ?_, ?_⟩
  · exact (promotion_contract (fun _ => [1]) _ "s1" "u1" none (7/10) 5 30 hne).1
      (by rw [hsval]; norm_num)
  · obtain ⟨e, he1, he2, _he3, he4, _he5⟩ :=
      (promotion_contract (fun _ => [1])
        ⟨[("s1", [("k", ⟨"urgent: call client", 0⟩)])], emptyQdrant⟩
        "s1" "u1" none (1/5) 5 30 hne).2.1
        (by rw [hsval]; norm_num) (by decide)
    exact ⟨e, by rw [he1, hD, hblob], he2, by rw [he4]⟩
  · exact stmGetAll_clear _ _ _ _
  · have h := (promotion_contract (fun _ => [1])
      ⟨[("s1", [("k", ⟨"urgent: call client", 0⟩)])],
       ⟨[⟨"ltm-id-9", "u1", "k: urgent: call client", [], some [1], 0⟩], 1⟩⟩
      "s1" "u1" none (1/5) 5 30 hne).2.2
      (by rw [hsval]; norm_num)
      (by norm_num [dedupHit, qdrantSearch, dedupFilters, entryMatches, vecScoreGe,
        cosSimGe, dot, sqnorm, MIN_SEARCH_SCORE, DEDUPLICATION_THRESHOLD,
        List.insertionSort, List.orderedInsert, decide_eq_true_eq])
    exact h

theorem ltmAddEntry_store_subset (encode : String → List ℚ) (s : QdrantState)
    (user_id text : String) (metadata : Dict) (conversation_id : Option String)
    (now : ℤ) (e : LongTermMemoryEntry)
    (he : e ∈ (ltmAddEntry encode s user_id text metadata conversation_id now).2.store) :
    e ∈ s.store ∨
      e = { id := freshId s.nextId, user_id := user_id, text := text,
            metadata := withConversationId metadata conversation_id,
            embedding := some (encode text), timestamp := now } := by
  by_cases hd : dedupHit (encode text)
      (qdrantSearch encode s text 3 (dedupFilters user_id conversation_id)
        MIN_SEARCH_SCORE) = true
  · simp only [ltmAddEntry, hd, if_true] at he
    exact Or.inl he
  · have hd' := Bool.eq_false_iff.mpr hd
    simp only [ltmAddEntry, hd', Bool.false_eq_true, if_false, qdrantAddEntry] at he
    rcases List.mem_append.mp he with h | h
    · exact Or.inl h
    · exact Or.inr (List.mem_singleton.mp h)

theorem dictGet_withConversationId_importance (md : Dict) (cid : Option String)
    (v : MetaVal) :
    dictGet (withConversationId (dictSet md "importance" v) cid) "importance" = some v := by
  cases cid with
  | none => exact dictGet_dictSet_self _ _ _
  | some c =>
    cases hc : (c != "") with
    | true =>
      simp only [withConversationId, hc, if_true]
      rw [dictGet_dictSet_ne _ _ _ _ (by decide)]
      exact dictGet_dictSet_self _ _ _
    | false =>
      simp only [withConversationId, hc, Bool.false_eq_true, if_false]
      exact dictGet_dictSet_self _ _ _

/-- **C7** (counterexample) — the claim fails as stated: `add_long_term`
stores a caller-supplied importance unvalidated; with `importance = 2` the
stored entry's importance is `2`, which is not in `[0, 1]`. -/
theorem importance_unvalidated_cex :
    (addLongTerm (fun _ => [1]) ⟨[], emptyQdrant⟩ "u1" "note to self" []
        (some 2) none {} 0).2.ltm.store.map
      (fun e => dictGet e.metadata "importance") = [some (.num 2)] ∧
    ¬ ((2 : ℚ) ≤ 1) := by
  constructor
  · simp [addLongTerm, ltmAddEntry, qdrantSearch, dedupHit, qdrantAddEntry,
      withConversationId, dictSet, alSet, dictGet, alGet, emptyQdrant, dedupFilters,
      List.insertionSort]
  · norm_num

/-- **C7** (amended) — every long-term entry stored by the engine with an
engine-computed importance (no caller-supplied value) has importance in
`[0, 1]`; promotion likewise stores the scorer's result, which is in
`[0, 1]` by `score_importance_nonneg`/`score_importance_le_one`.
A caller-supplied importance is stored unvalidated (see the
counterexample). -/
theorem computed_importance_in_range (encode : String → List ℚ) (s : MgrState)
    (user_id text : String) (metadata : Dict) (conversation_id : Option String)
    (context : ScoreContext) (now : ℤ) (e : LongTermMemoryEntry)
    (he : e ∈ (addLongTerm encode s user_id text metadata none conversation_id
        context now).2.ltm.store)
    (hnew : e ∉ s.ltm.store) :
    ∃ q : ℚ, dictGet e.metadata "importance" = some (.num q) ∧ 0 ≤ q ∧ q ≤ 1 := by
  rcases ltmAddEntry_store_subset encode s.ltm user_id text
      (dictSet metadata "importance" (.num (score_importance text context)))
      conversation_id now e he with hold | heq
  · exact absurd hold hnew
  · refine ⟨score_importance text context, ?_,
      score_importance_nonneg text context, score_importance_le_one text context⟩
    rw [heq]
    exact dictGet_withConversationId_importance _ _ _

/-- Witness for the amended C7: the entry stored for `"note"` (importance
not supplied) carries the scorer's value, which is in `[0, 1]`. -/
theorem computed_importance_in_range_witness :
    ∃ q : ℚ,
      dictGet (LongTermMemoryEntry.metadata
          ⟨freshId 0, "u1", "note",
            [("importance", MetaVal.num (score_importance "note" ⟨0, false⟩))],
            some [1], 0⟩)
          "importance" = some (.num q) ∧ 0 ≤ q ∧ q ≤ 1 :=
  computed_importance_in_range (fun _ => [1]) ⟨[], emptyQdrant⟩ "u1" "note" [] none ⟨0, false⟩ 0
    _
    (by simp [addLongTerm, ltmAddEntry, qdrantSearch, dedupHit, qdrantAddEntry,
      withConversationId, dictSet, alSet, emptyQdrant, dedupFilters, List.insertionSort])
    (by simp [emptyQdrant])

/-- **C8** (counterexample) — the claim fails as stated: in the dedup loop
an existing entry whose embedding is unavailable is skipped outright; no
Jaccard similarity is computed and no rejection happens, even for an
identical text whose token-set Jaccard similarity trivially reaches the
threshold (`_texts_similar` returns `true` here but is never invoked by
`add_entry`): the duplicate is inserted and a fresh id returned. -/
theorem jaccard_fallback_cex :
    textsSimilar "I like pizza" "I like pizza" (95/100) = true ∧
    dedupHit [1] [⟨"ltm-id-0", "u1", "I like pizza", [], none, 0⟩] = false ∧
    (ltmAddEntry (fun _ => [1]) ⟨[⟨"ltm-id-0", "u1", "I like pizza", [], none, 0⟩], 1⟩
        "u1" "I like pizza" [] none 0).1 = some (freshId 1) :=
  ⟨by decide, by decide, by decide⟩

/-- **C8** (amended) — during deduplicated insertion, a fetched entry
whose embedding is unavailable is skipped: similarity is not computed for
it (by Jaccard or otherwise) and it can never cause a rejection; if all
fetched entries lack embeddings the insertion is always accepted. -/
theorem dedup_skips_missing_embeddings (new_embedding : List ℚ)
    (existing : List LongTermMemoryEntry)
    (h : ∀ e ∈ existing, e.embedding = none) :
    dedupHit new_embedding existing = false := by
  induction existing with
  | nil => rfl
  | cons e rest ih =>
    have he := h e (List.mem_cons_self e rest)
    have ht := ih (fun x hx => h x (List.mem_cons_of_mem e hx))
    simp only [dedupHit, List.any_cons, Bool.or_eq_false_iff]
    exact ⟨by rw [he], by simpa [dedupHit] using ht⟩

/-- Witness for the amended C8: two embedding-less fetched entries never
reject. -/
theorem dedup_skips_missing_embeddings_witness :
    dedupHit [2, 3] [⟨"a", "u2", "hello there", [], none, 1⟩,
      ⟨"b", "u2", "general greeting", [], none, 2⟩] = false :=
  dedup_skips_missing_embeddings [2, 3] _ (by decide)

theorem consolidateGo_spec (θ : ℚ) :
    ∀ (pending : List MemoryEntry) (processed : List (Option String)),
      (pending.map (fun m => m.id)).Nodup →
      (consolidateGo θ pending processed).flatten.Nodup ∧
      ∀ i ∈ (consolidateGo θ pending processed).flatten,
        i ∉ processed ∧ i ∈ pending.map (fun m => m.id) := by
  intro pending
  induction pending with
  | nil =>
    intro processed _
    simp [consolidateGo]
  | cons m1 rest ih =>
    intro processed hnodup
    have hnd_rest : (rest.map (fun m => m.id)).Nodup := (List.nodup_cons.mp hnodup).2
    have hm1_rest : m1.id ∉ rest.map (fun m => m.id) := (List.nodup_cons.mp hnodup).1
    by_cases hc : processed.contains m1.id = true
    · simp only [consolidateGo, hc, if_true]
      obtain ⟨h1, h2⟩ := ih processed hnd_rest
      refine ⟨h1, fun i hi => ⟨(h2 i hi).1, ?_⟩⟩
      simpa using Or.inr ((h2 i hi).2)
    · have hc' : processed.contains m1.id = false := Bool.eq_false_iff.mpr hc
      by_cases hsim : (rest.filter (fun m2 =>
          !(processed.contains m2.id) &&
            decide (calculateSimilarity m1.text m2.text ≥ θ))).isEmpty = true
      · simp only [consolidateGo, hc', Bool.false_eq_true, if_false, hsim, if_true]
        obtain ⟨h1, h2⟩ := ih processed hnd_rest
        refine ⟨h1, fun i hi => ⟨(h2 i hi).1, ?_⟩⟩
        simpa using Or.inr ((h2 i hi).2)
      · have hsim' : (rest.filter (fun m2 =>
            !(processed.contains m2.id) &&
              decide (calculateSimilarity m1.text m2.text ≥ θ))).isEmpty = false :=
          Bool.eq_false_iff.mpr hsim
        simp only [consolidateGo, hc', Bool.false_eq_true, if_false, hsim', if_true,
          List.flatten_cons]
        set similar := rest.filter (fun m2 =>
          !(processed.contains m2.id) &&
            decide (calculateSimilarity m1.text m2.text ≥ θ)) with hsimdef
        set group := (m1 :: similar).map (fun m => m.id) with hgroupdef
        have hsubl : similar.Sublist rest := List.filter_sublist rest
        have hsim_ids : (similar.map (fun m => m.id)).Sublist
            (rest.map (fun m => m.id)) := hsubl.map _
        have hsim_nodup : (similar.map (fun m => m.id)).Nodup :=
          hnd_rest.sublist hsim_ids
        have hm1_sim : m1.id ∉ similar.map (fun m => m.id) :=
          fun hmem => hm1_rest (hsim_ids.subset hmem)
        have hgroup_nodup : group.Nodup := by
          rw [hgroupdef, List.map_cons]
          exact List.nodup_cons.mpr ⟨hm1_sim, hsim_nodup⟩
        have hgroup_proc : ∀ i ∈ group, i ∉ processed := by
          intro i hig
          rw [hgroupdef, List.map_cons] at hig
          rcases List.mem_cons.mp hig with h | h
          · subst h
            simpa using hc'
          · obtain ⟨m2, hm2, hm2id⟩ := List.mem_map.mp h
            have hf := (List.mem_filter.mp hm2).2
            simp at hf
            exact hm2id ▸ hf.1
        have hgroup_pend : ∀ i ∈ group, i ∈ (m1 :: rest).map (fun m => m.id) := by
          intro i hig
          rw [hgroupdef, List.map_cons] at hig
          rcases List.mem_cons.mp hig with h | h
          · subst h
            simp
          · rw [List.map_cons]
            exact List.mem_cons_of_mem _ (hsim_ids.subset h)
        obtain ⟨h1, h2⟩ := ih (processed ++ group) hnd_rest
        refine ⟨?_, ?_⟩
        · rw [List.nodup_append]
          refine ⟨hgroup_nodup, h1, ?_⟩
          intro i hig hif
          have := (h2 i hif).1
          exact this (List.mem_append.mpr (Or.inr hig))
        · intro i hi
          rcases List.mem_append.mp hi with hig | hif
          · exact ⟨hgroup_proc i hig, hgroup_pend i hig⟩
          · obtain ⟨hp, hr⟩ := h2 i hif
            refine ⟨fun hmem => hp (List.mem_append.mpr (Or.inl hmem)), ?_⟩
            rw [List.map_cons]
            exact List.mem_cons_of_mem _ hr

theorem runDeletes_eq_self (ids : List (Option String)) :
    ∀ s : MgrState, runDeletes s ids = s := by
  induction ids with
  | nil => intro s; rfl
  | cons i rest ih => intro s; exact ih s

theorem calculateSimilarity_self_pos (t : String)
    (hw : splitWords (String.mk (lowerChars t)) ≠ []) :
    calculateSimilarity t t = 1 := by
  unfold calculateSimilarity
  obtain ⟨w, hwmem⟩ := List.exists_mem_of_ne_nil _ hw
  have hmem : w ∈ (splitWords (String.mk (lowerChars t))).toFinset :=
    List.mem_toFinset.mpr hwmem
  have hne : (splitWords (String.mk (lowerChars t))).toFinset ∪
      (splitWords (String.mk (lowerChars t))).toFinset ≠ ∅ :=
    Finset.ne_empty_of_mem (Finset.mem_union_left _ hmem)
  rw [if_neg hne, Finset.inter_self, Finset.union_self]
  have hcard : (((splitWords (String.mk (lowerChars t))).toFinset.card : ℚ)) ≠ 0 := by
    have h0 : (splitWords (String.mk (lowerChars t))).toFinset.card ≠ 0 := by
      rw [Ne, Finset.card_eq_zero]
      exact Finset.ne_empty_of_mem hmem
    exact_mod_cast h0
  exact div_self hcard

/-- **C4** (counterexample) — the claim fails as stated: in a run over two
entries with identical texts both ids are grouped into one
`consolidated_from` list, yet nothing is deleted: `_delete_memory`
(`lifecycle.py` lines 119-129) is a logging placeholder whose deletion
call is commented out, so the run's delete calls return success while
leaving the state — still holding the grouped entry `"a"` — unchanged. -/
theorem consolidation_no_delete_cex :
    consolidationGroups
        [⟨some "a", "u1", "same note", [], 0, "long_term", 1/2⟩,
         ⟨some "b", "u1", "same note", [], 0, "long_term", 1/2⟩] (95/100) =
      [[some "a", some "b"]] ∧
    (deleteMemory
        ⟨[], ⟨[⟨"a", "u1", "same note", [], some [1], 0⟩,
               ⟨"b", "u1", "same note", [], some [1], 0⟩], 2⟩⟩ (some "a")).1 = true ∧
    runDeletes
        ⟨[], ⟨[⟨"a", "u1", "same note", [], some [1], 0⟩,
               ⟨"b", "u1", "same note", [], some [1], 0⟩], 2⟩⟩
        (consolidationDeleted
          [⟨some "a", "u1", "same note", [], 0, "long_term", 1/2⟩,
           ⟨some "b", "u1", "same note", [], 0, "long_term", 1/2⟩] (95/100)) =
      ⟨[], ⟨[⟨"a", "u1", "same note", [], some [1], 0⟩,
             ⟨"b", "u1", "same note", [], some [1], 0⟩], 2⟩⟩ ∧
    (∃ e ∈ (⟨[], ⟨[⟨"a", "u1", "same note", [], some [1], 0⟩,
            ⟨"b", "u1", "same note", [], some [1], 0⟩], 2⟩⟩ : MgrState).ltm.store,
      e.id = "a") := by
  have hsim : calculateSimilarity "same note" "same note" = 1 :=
    calculateSimilarity_self_pos _ (by decide)
  have hgroups : consolidationGroups
      [⟨some "a", "u1", "same note", [], 0, "long_term", 1/2⟩,
       ⟨some "b", "u1", "same note", [], 0, "long_term", 1/2⟩] (95/100) =
      [[some "a", some "b"]] := by
    unfold consolidationGroups
    simp only [consolidateGo, hsim, List.filter_cons, List.filter_nil]
    norm_num
  refine ⟨hgroups, rfl, ?_,
    ⟨⟨"a", "u1", "same note", [], some [1], 0⟩, by simp, rfl⟩⟩
  exact runDeletes_eq_self _ _

/-- **C4** (amended) — Consolidation partition: over an owner's entries
(with pairwise-distinct ids, the spec's id-uniqueness invariant), the
`consolidated_from` groups produced by one consolidation pass are pairwise
disjoint, and the flattened list of all grouped ids — the ids marked
processed and passed to `_delete_memory`, in call order — has no
duplicates: every source id lands in at most one group, is marked
processed exactly once, and is handed to `_delete_memory` exactly once;
those delete calls go to a logging placeholder and leave the engine state
unchanged (no source entry is actually removed). -/
theorem consolidation_partition (all_memories : List MemoryEntry) (θ : ℚ)
    (hids : (all_memories.map (fun m => m.id)).Nodup) :
    (consolidationGroups all_memories θ).Pairwise List.Disjoint ∧
    (consolidationDeleted all_memories θ).Nodup ∧
    ∀ s : MgrState, runDeletes s (consolidationDeleted all_memories θ) = s := by
  have h := (consolidateGo_spec θ all_memories [] hids).1
  refine ⟨?_, h, fun s => runDeletes_eq_self _ s⟩
  exact (List.nodup_flatten.mp h).2.imp (fun hd => hd)

/-- Witness for the amended C4: three entries, two with near-identical
texts, one distinct; ids are pairwise distinct. -/
theorem consolidation_partition_witness :
    (consolidationGroups
        [⟨some "a", "u1", "hello world", [], 0, "long_term", 1/2⟩,
         ⟨some "b", "u1", "hello world", [], 0, "long_term", 1/2⟩,
         ⟨some "c", "u1", "a completely different subject", [], 0, "long_term", 1/2⟩]
        (95/100)).Pairwise List.Disjoint ∧
    (consolidationDeleted
        [⟨some "a", "u1", "hello world", [], 0, "long_term", 1/2⟩,
         ⟨some "b", "u1", "hello world", [], 0, "long_term", 1/2⟩,
         ⟨some "c", "u1", "a completely different subject", [], 0, "long_term", 1/2⟩]
        (95/100)).Nodup ∧
    (∀ s : MgrState, runDeletes s
      (consolidationDeleted
        [⟨some "a", "u1", "hello world", [], 0, "long_term", 1/2⟩,
         ⟨some "b", "u1", "hello world", [], 0, "long_term", 1/2⟩,
         ⟨some "c", "u1", "a completely different subject", [], 0, "long_term", 1/2⟩]
        (95/100)) = s) :=
  consolidation_partition _ _ (by decide)

/-! ### Lemmas on the hybrid merge -/

/-- Keys of the `combined_results` rows. -/
def keysOf (rows : List HRow) : List String := rows.map (fun r => r.key)

/-- First row for a key (`combined_results[key]`). -/
def findRow (x : String) (rows : List HRow) : Option HRow :=
  rows.find? (fun r => r.key == x)

theorem keysOf_semanticInsert (rows : List HRow) (r : HRow) {a : String}
    (ha : a ∈ keysOf (semanticInsert rows r)) : a = r.key ∨ a ∈ keysOf rows := by
  induction rows with
  | nil => simpa [semanticInsert, keysOf] using ha
  | cons y rest ih =>
    cases hy : (y.key == r.key) with
    | true =>
      have hyk : y.key = r.key := eq_of_beq hy
      simp only [semanticInsert, hy, if_true, keysOf, List.map_cons, List.mem_cons] at ha ⊢
      rcases ha with h | h
      · exact Or.inl h
      · exact Or.inr (Or.inr h)
    | false =>
      simp only [semanticInsert, hy, Bool.false_eq_true, if_false, keysOf,
        List.map_cons, List.mem_cons] at ha ⊢
      rcases ha with h | h
      · exact Or.inr (Or.inl h)
      · rcases ih h with h' | h'
        · exact Or.inl h'
        · exact Or.inr (Or.inr h')

theorem keysOf_nodup_semanticInsert (rows : List HRow) (r : HRow)
    (h : (keysOf rows).Nodup) : (keysOf (semanticInsert rows r)).Nodup := by
  induction rows with
  | nil => simp [semanticInsert, keysOf]
  | cons y rest ih =>
    rw [keysOf, List.map_cons, List.nodup_cons] at h
    cases hy : (y.key == r.key) with
    | true =>
      have hyk : y.key = r.key := eq_of_beq hy
      simp only [semanticInsert, hy, if_true, keysOf, List.map_cons, List.nodup_cons]
      exact ⟨hyk ▸ h.1, h.2⟩
    | false =>
      have hyk : y.key ≠ r.key := fun hc => by simp [hc] at hy
      simp only [semanticInsert, hy, Bool.false_eq_true, if_false, keysOf,
        List.map_cons, List.nodup_cons]
      refine ⟨fun hc => ?_, ih h.2⟩
      rcases keysOf_semanticInsert rest r hc with h' | h'
      · exact hyk h'
      · exact h.1 h'

theorem keysOf_keywordInsert (rows : List HRow) (e : MemoryEntry) (ks : ℚ)
    {a : String} (ha : a ∈ keysOf (keywordInsert rows e ks)) :
    a = e.text ∨ a ∈ keysOf rows := by
  induction rows with
  | nil => simpa [keywordInsert, keysOf] using ha
  | cons y rest ih =>
    cases hy : (y.key == e.text) with
    | true =>
      simp only [keywordInsert, hy, if_true, keysOf, List.map_cons, List.mem_cons] at ha ⊢
      rcases ha with h | h
      · exact Or.inr (Or.inl h)
      · exact Or.inr (Or.inr h)
    | false =>
      simp only [keywordInsert, hy, Bool.false_eq_true, if_false, keysOf,
        List.map_cons, List.mem_cons] at ha ⊢
      rcases ha with h | h
      · exact Or.inr (Or.inl h)
      · rcases ih h with h' | h'
        · exact Or.inl h'
        · exact Or.inr (Or.inr h')

theorem keysOf_nodup_keywordInsert (rows : List HRow) (e : MemoryEntry) (ks : ℚ)
    (h : (keysOf rows).Nodup) : (keysOf (keywordInsert rows e ks)).Nodup := by
  induction rows with
  | nil => simp [keywordInsert, keysOf]
  | cons y rest ih =>
    rw [keysOf, List.map_cons, List.nodup_cons] at h
    cases hy : (y.key == e.text) with
    | true =>
      simp only [keywordInsert, hy, if_true, keysOf, List.map_cons, List.nodup_cons]
      exact ⟨h.1, h.2⟩
    | false =>
      have hyk : y.key ≠ e.text := fun hc => by simp [hc] at hy
      simp only [keywordInsert, hy, Bool.false_eq_true, if_false, keysOf,
        List.map_cons, List.nodup_cons]
      refine ⟨fun hc => ?_, ih h.2⟩
      rcases keysOf_keywordInsert rest e ks hc with h' | h'
      · exact hyk h'
      · exact h.1 h'

theorem coherent_semanticInsert (rows : List HRow) (r : HRow)
    (h : ∀ y ∈ rows, y.entry.text = y.key) (hr : r.entry.text = r.key) :
    ∀ y ∈ semanticInsert rows r, y.entry.text = y.key := by
  induction rows with
  | nil => simpa [semanticInsert] using hr
  | cons z rest ih =>
    cases hz : (z.key == r.key) with
    | true =>
      simp only [semanticInsert, hz, if_true]
      intro y hy
      rcases List.mem_cons.mp hy with h' | h'
      · exact h' ▸ hr
      · exact h y (List.mem_cons_of_mem _ h')
    | false =>
      simp only [semanticInsert, hz, Bool.false_eq_true, if_false]
      intro y hy
      rcases List.mem_cons.mp hy with h' | h'
      · exact h' ▸ h z (List.mem_cons_self _ _)
      · exact ih (fun a ha => h a (List.mem_cons_of_mem _ ha)) y h'

theorem coherent_keywordInsert (rows : List HRow) (e : MemoryEntry) (ks : ℚ)
    (h : ∀ y ∈ rows, y.entry.text = y.key) :
    ∀ y ∈ keywordInsert rows e ks, y.entry.text = y.key := by
  induction rows with
  | nil => simp [keywordInsert]
  | cons z rest ih =>
    cases hz : (z.key == e.text) with
    | true =>
      simp only [keywordInsert, hz, if_true]
      intro y hy
      rcases List.mem_cons.mp hy with h' | h'
      · subst h'
        exact h z (List.mem_cons_self _ _)
      · exact h y (List.mem_cons_of_mem _ h')
    | false =>
      simp only [keywordInsert, hz, Bool.false_eq_true, if_false]
      intro y hy
      rcases List.mem_cons.mp hy with h' | h'
      · exact h' ▸ h z (List.mem_cons_self _ _)
      · exact ih (fun a ha => h a (List.mem_cons_of_mem _ ha)) y h'

theorem foldl_preserves {α β : Type} (f : β → α → β) (P : β → Prop)
    (hstep : ∀ b a, P b → P (f b a)) :
    ∀ (l : List α) (b : β), P b → P (l.foldl f b) := by
  intro l
  induction l with
  | nil => intro b hb; exact hb
  | cons a rest ih => intro b hb; exact ih (f b a) (hstep b a hb)

theorem findRow_semanticInsert_ne (rows : List HRow) (r : HRow) (x : String)
    (h : r.key ≠ x) : findRow x (semanticInsert rows r) = findRow x rows := by
  induction rows with
  | nil => simp [semanticInsert, findRow, List.find?, beq_false_of_ne h]
  | cons y rest ih =>
    cases hy : (y.key == r.key) with
    | true =>
      have hyk : y.key = r.key := eq_of_beq hy
      simp only [semanticInsert, hy, if_true, findRow, List.find?,
        beq_false_of_ne h, beq_false_of_ne (hyk ▸ h)]
    | false =>
      simp only [semanticInsert, hy, Bool.false_eq_true, if_false, findRow, List.find?]
      cases hx : (y.key == x) with
      | true => rfl
      | false => exact ih

theorem findRow_semanticInsert_self (rows : List HRow) (r : HRow) :
    findRow r.key (semanticInsert rows r) = some r := by
  induction rows with
  | nil => simp [semanticInsert, findRow, List.find?]
  | cons y rest ih =>
    cases hy : (y.key == r.key) with
    | true =>
      simp [semanticInsert, hy, findRow, List.find?]
    | false =>
      simp only [semanticInsert, hy, Bool.false_eq_true, if_false, findRow,
        List.find?, hy]
      exact ih

theorem findRow_keywordInsert_ne (rows : List HRow) (e : MemoryEntry) (ks : ℚ)
    (x : String) (h : e.text ≠ x) :
    findRow x (keywordInsert rows e ks) = findRow x rows := by
  induction rows with
  | nil => simp [keywordInsert, findRow, List.find?, beq_false_of_ne h]
  | cons y rest ih =>
    cases hy : (y.key == e.text) with
    | true =>
      have hyk : y.key = e.text := eq_of_beq hy
      simp only [keywordInsert, hy, if_true, findRow, List.find?,
        beq_false_of_ne (hyk ▸ h)]
    | false =>
      simp only [keywordInsert, hy, Bool.false_eq_true, if_false, findRow, List.find?]
      cases hx : (y.key == x) with
      | true => rfl
      | false => exact ih

theorem findRow_keywordInsert_self (rows : List HRow) (e : MemoryEntry) (ks : ℚ) :
    findRow e.text (keywordInsert rows e ks) =
      some (match findRow e.text rows with
        | some r => { r with keyword_score := ks }
        | none => { key := e.text, entry := e, semantic_score := 0, keyword_score := ks }) := by
  induction rows with
  | nil => simp [keywordInsert, findRow, List.find?]
  | cons y rest ih =>
    cases hy : (y.key == e.text) with
    | true =>
      simp [keywordInsert, hy, findRow, List.find?]
    | false =>
      simp only [keywordInsert, hy, Bool.false_eq_true, if_false, findRow,
        List.find?, hy]
      exact ih

theorem findRow_semFold_ne (mk : ℕ × MemoryEntry → HRow)
    (hmk : ∀ p, (mk p).key = p.2.text) (x : String) :
    ∀ (l : List (ℕ × MemoryEntry)) (acc : List HRow),
      (∀ p ∈ l, p.2.text ≠ x) →
      findRow x (l.foldl (fun rows p => semanticInsert rows (mk p)) acc) =
        findRow x acc := by
  intro l
  induction l with
  | nil => intro acc _; rfl
  | cons p rest ih =>
    intro acc hl
    rw [List.foldl_cons,
      ih _ (fun q hq => hl q (List.mem_cons_of_mem _ hq)),
      findRow_semanticInsert_ne _ _ _
        (by rw [hmk]; exact hl p (List.mem_cons_self _ _))]

theorem findRow_kwFold_ne (g : ℕ × MemoryEntry → ℚ) (x : String) :
    ∀ (l : List (ℕ × MemoryEntry)) (acc : List HRow),
      (∀ p ∈ l, p.2.text ≠ x) →
      findRow x (l.foldl (fun rows p => keywordInsert rows p.2 (g p)) acc) =
        findRow x acc := by
  intro l
  induction l with
  | nil => intro acc _; rfl
  | cons p rest ih =>
    intro acc hl
    rw [List.foldl_cons,
      ih _ (fun q hq => hl q (List.mem_cons_of_mem _ hq)),
      findRow_keywordInsert_ne _ _ _ _ (hl p (List.mem_cons_self _ _))]

theorem findRow_semFoldFrom (mk : ℕ × MemoryEntry → HRow)
    (hmk : ∀ p, (mk p).key = p.2.text) (x : String) :
    ∀ (sem : List MemoryEntry) (n i : ℕ) (e1 : MemoryEntry) (acc : List HRow),
      (sem.map (fun m => m.text)).Nodup →
      sem.get? i = some e1 → e1.text = x →
      findRow x ((sem.enumFrom n).foldl (fun rows p => semanticInsert rows (mk p)) acc) =
        some (mk (n + i, e1)) := by
  intro sem
  induction sem with
  | nil => intro n i e1 acc _ h2 _; simp at h2
  | cons e rest ih =>
    intro n i e1 acc hnodup h2 hx
    rw [List.map_cons, List.nodup_cons] at hnodup
    cases i with
    | zero =>
      have he : e = e1 := by simpa using h2
      subst he
      simp only [List.enumFrom, List.foldl_cons]
      rw [findRow_semFold_ne mk hmk x _ _ ?rest]
      case rest =>
        intro p hp hpx
        have hp2 : p.2 ∈ rest := by
          have := List.mem_map_of_mem Prod.snd hp
          rwa [List.enumFrom_map_snd] at this
        have hmem : p.2.text ∈ rest.map (fun m => m.text) :=
          List.mem_map_of_mem _ hp2
        rw [hpx, ← hx] at hmem
        exact hnodup.1 hmem
      have hkey : (mk (n, e)).key = x := by rw [hmk]; exact hx
      rw [Nat.add_zero, ← hkey]
      exact findRow_semanticInsert_self acc (mk (n, e))
    | succ i' =>
      have h2' : rest.get? i' = some e1 := by simpa using h2
      have hex : e.text ≠ x := by
        intro hc
        exact hnodup.1 (hc ▸ hx ▸ List.mem_map_of_mem (fun m => m.text)
          (List.get?_mem h2'))
      simp only [List.enumFrom, List.foldl_cons]
      rw [ih (n + 1) i' e1 _ hnodup.2 h2' hx]
      have harith : n + 1 + i' = n + (i' + 1) := by omega
      rw [harith]

theorem findRow_kwFoldFrom (g : ℕ × MemoryEntry → ℚ) (x : String) :
    ∀ (kw : List MemoryEntry) (n j : ℕ) (e2 : MemoryEntry) (acc : List HRow),
      (kw.map (fun m => m.text)).Nodup →
      kw.get? j = some e2 → e2.text = x →
      findRow x ((kw.enumFrom n).foldl (fun rows p => keywordInsert rows p.2 (g p)) acc) =
        some (match findRow x acc with
          | some r => { r with keyword_score := g (n + j, e2) }
          | none => { key := x, entry := e2, semantic_score := 0,
                      keyword_score := g (n + j, e2) }) := by
  intro kw
  induction kw with
  | nil => intro n j e2 acc _ h2 _; simp at h2
  | cons e rest ih =>
    intro n j e2 acc hnodup h2 hx
    rw [List.map_cons, List.nodup_cons] at hnodup
    cases j with
    | zero =>
      have he : e = e2 := by simpa using h2
      subst he
      simp only [List.enumFrom, List.foldl_cons]
      rw [findRow_kwFold_ne g x _ _ ?rest]
      case rest =>
        intro p hp hpx
        have hp2 : p.2 ∈ rest := by
          have := List.mem_map_of_mem Prod.snd hp
          rwa [List.enumFrom_map_snd] at this
        have hmem : p.2.text ∈ rest.map (fun m => m.text) :=
          List.mem_map_of_mem _ hp2
        rw [hpx, ← hx] at hmem
        exact hnodup.1 hmem
      rw [Nat.add_zero, ← hx]
      rw [findRow_keywordInsert_self acc e (g (n, e))]
    | succ j' =>
      have h2' : rest.get? j' = some e2 := by simpa using h2
      have hex : e.text ≠ x := by
        intro hc
        have hmem : e2.text ∈ rest.map (fun m => m.text) :=
          List.mem_map_of_mem _ (List.get?_mem h2')
        rw [hx, ← hc] at hmem
        exact hnodup.1 hmem
      simp only [List.enumFrom, List.foldl_cons]
      rw [ih (n + 1) j' e2 _ hnodup.2 h2' hx]
      have harith : n + 1 + j' = n + (j' + 1) := by omega
      rw [harith, findRow_keywordInsert_ne acc e (g (n, e)) x hex]

theorem enum_eq_enumFrom {α : Type} (l : List α) : l.enum = l.enumFrom 0 := rfl

theorem hybridRows_keys_nodup (sem kw : List MemoryEntry) :
    (keysOf (hybridRows sem kw)).Nodup := by
  unfold hybridRows
  apply foldl_preserves _ (fun rows => (keysOf rows).Nodup)
    (fun rows p h => keysOf_nodup_keywordInsert rows p.2 (kwRankScore kw.length p) h)
  apply foldl_preserves _ (fun rows => (keysOf rows).Nodup)
    (fun rows p h => keysOf_nodup_semanticInsert rows (mkSemRow sem.length p) h)
  simp [keysOf]

theorem hybridRows_coherent (sem kw : List MemoryEntry) :
    ∀ y ∈ hybridRows sem kw, y.entry.text = y.key := by
  unfold hybridRows
  apply foldl_preserves _ (fun rows => ∀ y ∈ rows, y.entry.text = y.key)
    (fun rows p h => coherent_keywordInsert rows p.2 (kwRankScore kw.length p) h)
  apply foldl_preserves _ (fun rows => ∀ y ∈ rows, y.entry.text = y.key)
    (fun rows p h => coherent_semanticInsert rows (mkSemRow sem.length p) h rfl)
  simp

theorem findRow_hybridRows (sem kw : List MemoryEntry) (x : String) (i j : ℕ)
    (e1 e2 : MemoryEntry)
    (hsem : (sem.map (fun m => m.text)).Nodup)
    (hkw : (kw.map (fun m => m.text)).Nodup)
    (h1 : sem.get? i = some e1) (h2 : kw.get? j = some e2)
    (hx1 : e1.text = x) (hx2 : e2.text = x) :
    findRow x (hybridRows sem kw) =
      some { key := x, entry := e1,
             semantic_score := rankScore sem.length i * (7/10),
             keyword_score := rankScore kw.length j * (3/10) } := by
  have hsemrow := findRow_semFoldFrom (mkSemRow sem.length) (fun p => rfl) x sem 0 i e1 []
    hsem h1 hx1
  have hkwrow := findRow_kwFoldFrom (kwRankScore kw.length) x kw 0 j e2
    ((sem.enumFrom 0).foldl (fun rows p => semanticInsert rows (mkSemRow sem.length p)) [])
    hkw h2 hx2
  rw [hsemrow] at hkwrow
  unfold hybridRows
  rw [enum_eq_enumFrom, enum_eq_enumFrom, hkwrow]
  simp only [Nat.zero_add, mkSemRow, kwRankScore, hx1]

theorem filter_eq_singleton_of_findRow (x : String) :
    ∀ (rows : List HRow) (r : HRow),
      (keysOf rows).Nodup → findRow x rows = some r →
      rows.filter (fun y => y.key == x) = [r] := by
  intro rows
  induction rows with
  | nil => intro r _ hf; simp [findRow, List.find?] at hf
  | cons y rest ih =>
    intro r hnd hf
    rw [keysOf, List.map_cons, List.nodup_cons] at hnd
    cases hy : (y.key == x) with
    | true =>
      have hyx : y.key = x := eq_of_beq hy
      simp only [findRow, List.find?, hy] at hf
      have hr : y = r := by simpa using hf
      subst hr
      rw [List.filter_cons_of_pos (by simpa using hy)]
      have hrest : rest.filter (fun z => z.key == x) = [] := by
        rw [List.filter_eq_nil_iff]
        intro z hz hc
        have hzx : z.key = x := by simpa using hc
        exact hnd.1 (hyx ▸ hzx ▸ List.mem_map_of_mem (fun q => q.key) hz)
      rw [hrest]
    | false =>
      simp only [findRow, List.find?, hy] at hf
      rw [List.filter_cons_of_neg (by simp [hy])]
      exact ih r hnd.2 hf

theorem searchScore_stampScore (r : HRow) :
    searchScore (stampScore r) = r.semantic_score + r.keyword_score := by
  simp [searchScore, stampScore, dictGet_dictSet_self]

theorem stampScore_text (r : HRow) : (stampScore r).text = r.entry.text := rfl

theorem hybridScored_texts (sem kw : List MemoryEntry) :
    (hybridScored sem kw).map (fun e => e.text) = keysOf (hybridRows sem kw) := by
  unfold hybridScored keysOf
  rw [List.map_map]
  apply List.map_congr_left
  intro r hr
  simpa [stampScore] using hybridRows_coherent sem kw r hr

/-- **C3** — Hybrid merge identity and weighting: the merged hybrid output
has at most one row per distinct text (also after the `[:top_k]`
truncation); a text present (once) in each mode's results at 0-based
positions `i` and `j` yields a single row whose combined `search_score` is
`0.7 * (N - i)/N + 0.3 * (M - j)/M`; the final list is sorted by combined
score descending (`scoreRel`), with ties broken by first-seen order (the
stable-sort conjunct); and for two disjoint single-hit result sets the
combined scores are exactly `0.7` and `0.3`. -/
theorem hybrid_merge_contract (sem kw : List MemoryEntry) (top_k : ℕ) (x : String)
    (i j : ℕ) (e1 e2 : MemoryEntry)
    (hsem : (sem.map (fun m => m.text)).Nodup)
    (hkw : (kw.map (fun m => m.text)).Nodup)
    (h1 : sem.get? i = some e1) (h2 : kw.get? j = some e2)
    (hx1 : e1.text = x) (hx2 : e2.text = x) :
    ((hybridMerge sem kw).map (fun e => e.text)).Nodup ∧
    ((hybridSearchOutput sem kw top_k).map (fun e => e.text)).Nodup ∧
    ((hybridMerge sem kw).filter (fun e => e.text == x)).map searchScore =
      [rankScore sem.length i * (7/10) + rankScore kw.length j * (3/10)] ∧
    (hybridMerge sem kw).Sorted scoreRel ∧
    (hybridSearchOutput sem kw top_k).Sorted scoreRel ∧
    (∀ a b, scoreRel a b → [a, b].Sublist (hybridScored sem kw) →
      [a, b].Sublist (hybridMerge sem kw)) ∧
    (hybridMerge [⟨none, "u", "alpha", [], 0, "long_term", 1/2⟩]
        [⟨none, "u2", "beta", [], 0, "long_term", 1/2⟩]).map searchScore =
      [7/10, 3/10] := by
  have hperm : List.Perm (hybridMerge sem kw) (hybridScored sem kw) :=
    List.perm_insertionSort scoreRel (hybridScored sem kw)
  have htexts : ((hybridMerge sem kw).map (fun e => e.text)).Nodup := by
    rw [(hperm.map (fun e => e.text)).nodup_iff, hybridScored_texts]
    exact hybridRows_keys_nodup sem kw
  have hsorted : (hybridMerge sem kw).Sorted scoreRel :=
    List.sorted_insertionSort scoreRel (hybridScored sem kw)
  refine ⟨htexts, ?_, ?_, hsorted, ?_, ?_, ?_⟩
  · rw [hybridSearchOutput, List.map_take]
    exact htexts.sublist (List.take_sublist _ _)
  · have hfr := findRow_hybridRows sem kw x i j e1 e2 hsem hkw h1 h2 hx1 hx2
    have hfilter := filter_eq_singleton_of_findRow x (hybridRows sem kw) _
      (hybridRows_keys_nodup sem kw) hfr
    have hscored : (hybridScored sem kw).filter (fun e => e.text == x) =
        [stampScore ⟨x, e1, rankScore sem.length i * (7/10),
          rankScore kw.length j * (3/10)⟩] := by
      unfold hybridScored
      rw [List.filter_map]
      have hcongr : (hybridRows sem kw).filter
            (fun r => ((fun e => e.text == x) ∘ stampScore) r) =
          (hybridRows sem kw).filter (fun y => y.key == x) := by
        apply List.filter_congr
        intro r hr
        simp only [Function.comp, stampScore_text]
        rw [hybridRows_coherent sem kw r hr]
      rw [hcongr, hfilter, List.map_singleton]
    have hpermf : List.Perm ((hybridMerge sem kw).filter (fun e => e.text == x))
        ((hybridScored sem kw).filter (fun e => e.text == x)) :=
      hperm.filter _
    rw [hscored] at hpermf
    rw [List.perm_singleton.mp hpermf, List.map_singleton, searchScore_stampScore]
  · exact List.Pairwise.sublist (List.take_sublist _ _) hsorted
  · intro a b hab hsub
    exact List.pair_sublist_insertionSort hab hsub
  · norm_num [hybridMerge, hybridScored, hybridRows, mkSemRow, kwRankScore, rankScore,
      semanticInsert, keywordInsert, stampScore, searchScore, dictGet, alGet, dictSet,
      alSet, scoreRel, List.insertionSort, List.orderedInsert, enum_eq_enumFrom,
      List.enumFrom]

/-- Witness for C3: the same text at position 0 of both single-element mode
results gets one row with combined score `0.7 * 1 + 0.3 * 1`, and the
output is sorted. -/
theorem hybrid_merge_contract_witness :
    ((hybridMerge [⟨none, "u", "alpha", [], 0, "long_term", 1/2⟩]
        [⟨none, "u2", "alpha", [], 0, "long_term", 1/2⟩]).filter
      (fun e => e.text == "alpha")).map searchScore =
      [rankScore 1 0 * (7/10) + rankScore 1 0 * (3/10)] ∧
    (hybridMerge [⟨none, "u", "alpha", [], 0, "long_term", 1/2⟩]
        [⟨none, "u2", "alpha", [], 0, "long_term", 1/2⟩]).Sorted scoreRel := by
  obtain ⟨_, _, hb, hc, _, _, _⟩ :=
    hybrid_merge_contract [⟨none, "u", "alpha", [], 0, "long_term", 1/2⟩]
      [⟨none, "u2", "alpha", [], 0, "long_term", 1/2⟩] 5 "alpha" 0 0
      ⟨none, "u", "alpha", [], 0, "long_term", 1/2⟩
      ⟨none, "u2", "alpha", [], 0, "long_term", 1/2⟩
      (by simp) (by simp) rfl rfl rfl rfl
  exact ⟨hb, hc⟩
